import Mathlib

/-!
Verification of the wow-addon-sync repository: a shallow embedding of the
differential directory synchronization engine (directory_manager.py), the
selection filter (character_dialog.py), the scan engine, and the version
control adapter (git_manager.py), together with theorems settling the
frozen claims about the natural-language specification.

Modelling conventions:
- A directory is a finite list of named entries, each a file (with byte
  content) or a subdirectory.  On-disk directories are unordered
  name-keyed maps, so the functions below fix one canonical construction
  order for their results; all name-to-tree associations follow the
  Python code exactly.
- Paths handed to ignore callbacks are modelled as component lists,
  abstracting the absolute filesystem prefix above the sync root.
- filecmp.dircmp file comparison (shallow stat comparison, with
  shutil.copy2 preserving metadata) is abstracted as equality of the
  modelled content.
- Filesystem errors abort an operation; the partial low-level effects of
  the failing library call itself are not modelled.
-/

namespace WowSync

/-- A directory listing: a finite sequence of named entries, each either
a file with byte content or a subdirectory with its own listing. -/
inductive FSEntries where
  | nil : FSEntries
  | file (name : String) (content : List Nat) (rest : FSEntries) : FSEntries
  | dir (name : String) (entries : FSEntries) (rest : FSEntries) : FSEntries
  deriving DecidableEq

/-- A single file system node: what a path resolves to. -/
inductive FSTree where
  | file (content : List Nat) : FSTree
  | dir (entries : FSEntries) : FSTree
  deriving DecidableEq

/-- Prepend an entry holding a given node. -/
def FSEntries.consT (n : String) (t : FSTree) (r : FSEntries) : FSEntries :=
  match t with
  | .file c => .file n c r
  | .dir es => .dir n es r

/-- Names listed in a directory, in order. -/
def FSEntries.names : FSEntries → List String
  | .nil => []
  | .file n _ r => n :: r.names
  | .dir n _ r => n :: r.names

/-- Look a name up in a directory (first match). -/
def FSEntries.lookup : FSEntries → String → Option FSTree
  | .nil, _ => none
  | .file n c r, m => if n = m then some (.file c) else r.lookup m
  | .dir n es r, m => if n = m then some (.dir es) else r.lookup m

/-- os.path.isdir for a node. -/
def FSTree.isDir : FSTree → Bool
  | .file _ => false
  | .dir _ => true

/-- Append two directory listings. -/
def FSEntries.append : FSEntries → FSEntries → FSEntries
  | .nil, es => es
  | .file n c r, es => .file n c (r.append es)
  | .dir n d r, es => .dir n d (r.append es)

/-- Directory listing as a plain list of (name, node) pairs. -/
def FSEntries.toList : FSEntries → List (String × FSTree)
  | .nil => []
  | .file n c r => (n, .file c) :: r.toList
  | .dir n es r => (n, .dir es) :: r.toList

/-- Number of files contained in a directory subtree
(the count of src_path.rglob entries that are files). -/
def FSEntries.fileCount : FSEntries → Nat
  | .nil => 0
  | .file _ _ r => 1 + r.fileCount
  | .dir _ es r => es.fileCount + r.fileCount

/-- Number of files copied when a source node is copied in full:
one for a file, the recursive file count for a directory. -/
def FSTree.fileCount : FSTree → Nat
  | .file _ => 1
  | .dir es => es.fileCount

/-- Well-formedness of a directory listing as a real file system state:
no duplicate names at any level. -/
def FSEntries.wfb : FSEntries → Bool
  | .nil => true
  | .file n _ r => !(r.names.contains n) && r.wfb
  | .dir n es r => !(r.names.contains n) && es.wfb && r.wfb

/-- Follow a component path below a directory listing. -/
def FSEntries.getPath : FSEntries → List String → Option FSTree
  | es, [] => some (.dir es)
  | .nil, _ :: _ => none
  | .file n c r, m :: p =>
    if n = m then
      match p with
      | [] => some (.file c)
      | _ :: _ => none
    else r.getPath (m :: p)
  | .dir n es r, m :: p =>
    if n = m then es.getPath p else r.getPath (m :: p)

/-- Replace the node stored under an existing name (first match). -/
def FSEntries.setEntry : FSEntries → String → FSTree → FSEntries
  | .nil, _, _ => .nil
  | .file m c r, n, t => if m = n then .consT m t r else .file m c (r.setEntry n t)
  | .dir m es r, n, t => if m = n then .consT m t r else .dir m es (r.setEntry n t)

/-- One scanned character record (directory_manager.scan_directory):
the 4-tuple stored under a colon-joined key. -/
structure CharInfo where
  version : String
  account : String
  server : String
  character : String
  deriving DecidableEq

/-- The captured arguments of DirectoryManager._create_ignore_function.
The selected-characters mapping may also carry the _explicit_selection
marker key; the ignore function only ever tests key membership for it, so
its (boolean) value is not modelled. -/
structure FilterCfg where
  syncType : String
  version : String
  syncConfigWtf : Bool
  selectedAccounts : List (String × List String)
  selectedCharacters : List (String × List String)
  availableCharacters : List (String × CharInfo)
  deriving DecidableEq

/-- The type of a shutil.copytree-style ignore callback: the directory
path (component list) and its entries, returning names to exclude. -/
abbrev Ign := List String → FSEntries → List String

/-- Entry f of the directory is itself a directory (Path(dir, f).is_dir()). -/
def isDirAt (files : FSEntries) (f : String) : Bool :=
  match files.lookup f with
  | some t => t.isDir
  | none => false

/-- Index of the first component named Account (parts.index in Python,
guarded by the membership test). -/
def accountIdx : List String → Option Nat
  | [] => none
  | x :: r => if x = "Account" then some 0 else (accountIdx r).map (· + 1)

/-- The characters selected for one (account, server) pair, resolved
through the available-characters records (rule 4 helper). -/
def selectedCharsFor (cfg : FilterCfg) (account server : String)
    (keys : List String) : List String :=
  keys.filterMap fun k =>
    match cfg.availableCharacters.lookup k with
    | some ci =>
      if ci.account = account ∧ ci.server = server then some ci.character else none
    | none => none

/-- Rule 1: under a directory literally named WTF, exclude a directory
entry named SavedVariables. -/
def rule1 (cfg : FilterCfg) (dir : List String) (files : FSEntries) : List String :=
  if cfg.syncType = "WTF" ∧ dir.getLast? = some "WTF" then
    files.names.filter fun f => f == "SavedVariables" && isDirAt files f
  else []

/-- str.lower of Python, restricted to the per-character case mapping
(String.toLower unfolded to its character map). -/
def lowerStr (s : String) : String := ⟨s.data.map Char.toLower⟩

/-- Rule 2: when settings-file sync is off, exclude any entry whose
lower-cased name is config.wtf. -/
def rule2 (cfg : FilterCfg) (files : FSEntries) : List String :=
  if cfg.syncConfigWtf = false ∧ cfg.syncType = "WTF" then
    files.names.filter fun f => lowerStr f == "config.wtf"
  else []

/-- Rule 3: directly under a directory named Account, exclude directory
entries not in the account allow-list of this version. -/
def rule3 (cfg : FilterCfg) (dir : List String) (files : FSEntries) : List String :=
  match cfg.selectedAccounts.lookup cfg.version with
  | some selected =>
    if cfg.syncType = "WTF" ∧ dir.getLast? = some "Account" then
      files.names.filter fun f => !(selected.contains f) && isDirAt files f
    else []
  | none => []

/-- Rule 4: at a realm directory (two levels below an Account component,
the directory name equal to the realm component), exclude character
folders not selected for that (account, realm) pair; a no-op when the
derived selected set for the pair is empty. -/
def rule4 (cfg : FilterCfg) (dir : List String) (files : FSEntries) : List String :=
  match cfg.selectedCharacters.lookup cfg.version with
  | some keys =>
    if cfg.syncType = "WTF" then
      match accountIdx dir with
      | some i =>
        match dir.get? (i + 1), dir.get? (i + 2) with
        | some account, some server =>
          if dir.getLast? = some server then
            let selChars := selectedCharsFor cfg account server keys
            if selChars ≠ [] then
              let charFolders := files.names.filter fun f =>
                isDirAt files f && f ≠ "." && f ≠ ".."
              charFolders.filter fun f => !(selChars.contains f)
            else []
          else []
        | _, _ => []
      | none => []
    else []
  | none => []

/-- The closure returned by DirectoryManager._create_ignore_function:
the four additive exclusion rules, concatenated in source order. -/
def ignoreFunction (cfg : FilterCfg) : Ign := fun dir files =>
  rule1 cfg dir files ++ rule2 cfg files ++ rule3 cfg dir files ++ rule4 cfg dir files

/-- Apply an optional ignore callback (absent callback excludes nothing). -/
def ignApply (ign : Option Ign) (path : List String) (es : FSEntries) : List String :=
  match ign with
  | some f => f path es
  | none => []

/-- The per-character default checkbox state computed by
CharacterDialog._create_collapsible_section: with the explicit-selection
marker present, a character is selected iff its version key is present
and carries the character key; without the marker, always selected. -/
def defaultSelected (selectedCharacters : List (String × List String))
    (versionDir charKey : String) : Bool :=
  if (selectedCharacters.lookup "_explicit_selection").isSome then
    match selectedCharacters.lookup versionDir with
    | some l => l.contains charKey
    | none => false
  else true

/-- shutil.copytree over a directory listing: compute the excluded names
at this level, drop them, copy files directly and recurse into
subdirectories, re-invoking the ignore callback at each level. -/
def copytreeE (ign : Option Ign) (path : List String) (ignored : List String) :
    FSEntries → FSEntries
  | .nil => .nil
  | .file n c r =>
    let rest := copytreeE ign path ignored r
    if n ∈ ignored then rest else .file n c rest
  | .dir n es r =>
    let rest := copytreeE ign path ignored r
    if n ∈ ignored then rest
    else .dir n (copytreeE ign (path ++ [n]) (ignApply ign (path ++ [n]) es) es) rest

/-- shutil.copytree of a source node to a fresh destination. -/
def copytreeT (ign : Option Ign) (path : List String) : FSTree → FSTree
  | .file c => .file c
  | .dir es => .dir (copytreeE ign path (ignApply ign path es) es)

/-- Destination entries hidden from the dircmp comparison (in the ignore
list) that have no source entry: they survive a differential pass. -/
def keptEntries (srcNames ignored : List String) : FSEntries → FSEntries
  | .nil => .nil
  | .file n c r =>
    if n ∉ srcNames ∧ n ∈ ignored then
      .file n c (keptEntries srcNames ignored r)
    else keptEntries srcNames ignored r
  | .dir n es r =>
    if n ∉ srcNames ∧ n ∈ ignored then
      .dir n es (keptEntries srcNames ignored r)
    else keptEntries srcNames ignored r

/-- Destination-only entries visible to dircmp (right_only): each is
removed by step 3 of _copy_folder_diff; this counts those removals. -/
def deletedCount (srcNames ignored : List String) : FSEntries → Nat
  | .nil => 0
  | .file n _ r =>
    (if n ∉ srcNames ∧ n ∉ ignored then 1 else 0) +
      deletedCount srcNames ignored r
  | .dir n _ r =>
    (if n ∉ srcNames ∧ n ∉ ignored then 1 else 0) +
      deletedCount srcNames ignored r

/-- Close one level of _copy_folder_diff around the per-source-entry
result: append the hidden destination-only survivors and add the
right_only removal count. -/
def wrapSync (srcNames ignored : List String) (de : FSEntries)
    (r : FSEntries × Nat × Nat) : FSEntries × Nat × Nat :=
  (r.1.append (keptEntries srcNames ignored de), r.2.1,
   r.2.2 + deletedCount srcNames ignored de)

/-- The per-name work of DirectoryManager._copy_folder_diff, driven by the
source listing (ignored: the excluded names at this level; de: the
destination listing).  For each source name: excluded names are hidden
from the comparison (the destination version, if any, is untouched);
names missing from the destination are copied in full without
re-applying the filter below (step 1, shutil.copytree with no ignore
argument); common files are overwritten when contents differ (step 2);
common directories are recursed into with the scoped callback, which
re-derives the exclusions from the original callback at the deeper path
(step 4); a file/directory type mismatch is left untouched (dircmp
common_funny).  Returns the resulting entries together with the
copied-file and deletion counts. -/
def syncEntries (ign : Option Ign) (path : List String) (ignored : List String) :
    FSEntries → FSEntries → FSEntries × Nat × Nat
  | .nil, _ => (.nil, 0, 0)
  | .file n c r, de =>
    let rest := syncEntries ign path ignored r de
    if n ∈ ignored then
      match de.lookup n with
      | some dt => (.consT n dt rest.1, rest.2.1, rest.2.2)
      | none => rest
    else
      match de.lookup n with
      | none => (.file n c rest.1, rest.2.1 + 1, rest.2.2)
      | some (.file dc) =>
        if c = dc then (.file n dc rest.1, rest.2.1, rest.2.2)
        else (.file n c rest.1, rest.2.1 + 1, rest.2.2)
      | some (.dir des) => (.dir n des rest.1, rest.2.1, rest.2.2)
  | .dir n se2 r, de =>
    let rest := syncEntries ign path ignored r de
    if n ∈ ignored then
      match de.lookup n with
      | some dt => (.consT n dt rest.1, rest.2.1, rest.2.2)
      | none => rest
    else
      match de.lookup n with
      | none => (.dir n se2 rest.1, rest.2.1 + se2.fileCount, rest.2.2)
      | some (.file dc) => (.file n dc rest.1, rest.2.1, rest.2.2)
      | some (.dir de2) =>
        let ig2 := ignApply ign (path ++ [n]) se2
        let sub := wrapSync se2.names ig2 de2
          (syncEntries ign (path ++ [n]) ig2 se2 de2)
        (.dir n sub.1 rest.1, rest.2.1 + sub.2.1, rest.2.2 + sub.2.2)

/-- DirectoryManager._copy_folder_diff on two existing directories:
compute this level's exclusions from the source listing, synchronize per
source name, keep hidden destination-only entries and delete the visible
destination-only ones. -/
def copyFolderDiff (ign : Option Ign) (path : List String) (se de : FSEntries) :
    FSEntries × Nat × Nat :=
  let ignored := ignApply ign path se
  wrapSync se.names ignored de (syncEntries ign path ignored se de)

/-! ### Basic lemmas about directory listings -/

theorem FSEntries.append_nil (es : FSEntries) : es.append .nil = es := by
  induction es with
  | nil => rfl
  | file n c r ih => simp [FSEntries.append, ih]
  | dir n d r ihE ihR => simp [FSEntries.append, ihR]

theorem FSEntries.names_append (a b : FSEntries) :
    (a.append b).names = a.names ++ b.names := by
  induction a with
  | nil => rfl
  | file n c r ih => simp [FSEntries.append, FSEntries.names, ih]
  | dir n d r ihE ihR => simp [FSEntries.append, FSEntries.names, ihR]

theorem FSEntries.lookup_append (a b : FSEntries) (n : String) :
    (a.append b).lookup n =
      match a.lookup n with
      | some t => some t
      | none => b.lookup n := by
  induction a with
  | nil => rfl
  | file m c r ih =>
    by_cases h : m = n <;> simp [FSEntries.append, FSEntries.lookup, h, ih]
  | dir m d r ihE ihR =>
    by_cases h : m = n <;> simp [FSEntries.append, FSEntries.lookup, h, ihR]

theorem FSEntries.lookup_eq_none (es : FSEntries) (n : String)
    (h : n ∉ es.names) : es.lookup n = none := by
  induction es with
  | nil => rfl
  | file m c r ih =>
    simp only [FSEntries.names, List.mem_cons, not_or] at h
    simp [FSEntries.lookup, Ne.symm h.1, ih h.2]
  | dir m d r ihE ihR =>
    simp only [FSEntries.names, List.mem_cons, not_or] at h
    simp [FSEntries.lookup, Ne.symm h.1, ihR h.2]

theorem FSEntries.lookup_consT_self (n : String) (t : FSTree) (r : FSEntries) :
    (FSEntries.consT n t r).lookup n = some t := by
  cases t <;> simp [FSEntries.consT, FSEntries.lookup]

theorem FSEntries.lookup_consT_ne (n m : String) (t : FSTree) (r : FSEntries)
    (h : n ≠ m) : (FSEntries.consT n t r).lookup m = r.lookup m := by
  cases t <;> simp [FSEntries.consT, FSEntries.lookup, h]

theorem FSEntries.names_consT (n : String) (t : FSTree) (r : FSEntries) :
    (FSEntries.consT n t r).names = n :: r.names := by
  cases t <;> simp [FSEntries.consT, FSEntries.names]

/-! ### Claim C1: fresh copy versus differential copy on an empty
destination.

The fresh path (shutil.copytree with the ignore callback) re-applies the
filter at every directory level, while the differential path copies
source-only directories with shutil.copytree and no ignore argument
(directory_manager.py line 189), so a filter that excludes entries below
the top level distinguishes the two paths.  The equivalence does hold for
filters acting only at the copy root. -/

/-- A filter configuration with settings-file sync disabled and no
selections: rule 2 excludes config.wtf at every depth. -/
def cfgNested : FilterCfg := ⟨"WTF", "_retail_", false, [], [], []⟩

/-- A source tree whose excluded file sits one level below the root. -/
def srcNested : FSEntries := .dir "Sub" (.file "Config.wtf" [] .nil) .nil

/-- Claim C1 (counterexample): with settings-file sync disabled, a
Config.wtf one level below the sync root is excluded by the fresh-copy
path but copied by the differential path run against an empty
destination: the two resulting trees differ. -/
theorem claim1_counterexample :
    copytreeT (some (ignoreFunction cfgNested)) ["WTF"] (.dir srcNested) ≠
      .dir (copyFolderDiff (some (ignoreFunction cfgNested)) ["WTF"]
        srcNested .nil).1 := by
  decide

theorem copytreeE_deep_id (ign : Ign) (L : Nat)
    (h : ∀ p es2, L < p.length → ign p es2 = []) :
    ∀ (es : FSEntries) (p : List String), L < p.length →
      copytreeE (some ign) p [] es = es := by
  intro es
  induction es with
  | nil => intro p _; rfl
  | file n c r ih =>
    intro p hp
    simp [copytreeE, ih p hp]
  | dir n d r ihE ihR =>
    intro p hp
    have hd : ignApply (some ign) (p ++ [n]) d = [] := by
      simp [ignApply, h (p ++ [n]) d (by simp; omega)]
    have hdeep : L < (p ++ [n]).length := by simp; omega
    simp [copytreeE, hd, ihE (p ++ [n]) hdeep, ihR p hp]

theorem sync_empty_dest (ign : Ign) (root : List String)
    (h : ∀ p es2, root.length < p.length → ign p es2 = []) :
    ∀ (se : FSEntries) (ignored : List String),
      (syncEntries (some ign) root ignored se .nil).1 =
        copytreeE (some ign) root ignored se := by
  intro se
  induction se with
  | nil => intro ignored; rfl
  | file n c r ih =>
    intro ignored
    by_cases hn : n ∈ ignored <;>
      simp [syncEntries, copytreeE, FSEntries.lookup, hn, ih]
  | dir n d r ihE ihR =>
    intro ignored
    have hd : ignApply (some ign) (root ++ [n]) d = [] := by
      simp [ignApply, h (root ++ [n]) d (by simp)]
    have hid : copytreeE (some ign) (root ++ [n])
        (ignApply (some ign) (root ++ [n]) d) d = d := by
      rw [hd]
      exact copytreeE_deep_id ign root.length h d (root ++ [n]) (by simp)
    by_cases hn : n ∈ ignored <;>
      simp [syncEntries, copytreeE, FSEntries.lookup, hn, ihR, hid]

/-- Claim C1 (amended): the fresh-copy path and the differential-copy
path applied to an empty destination produce identical trees whenever
the ignore callback excludes nothing strictly below the copy root; in
general they differ, because the differential path copies source-only
directories in full without re-applying the filter below them. -/
theorem claim1_amended (ign : Ign) (root : List String) (se : FSEntries)
    (h : ∀ p es2, root.length < p.length → ign p es2 = []) :
    copytreeT (some ign) root (.dir se) =
      .dir (copyFolderDiff (some ign) root se .nil).1 := by
  simp only [copytreeT, copyFolderDiff, wrapSync, keptEntries,
    FSEntries.append_nil]
  rw [sync_empty_dest ign root h]

/-- Claim C1 (witness for the amended theorem): a filter acting only at
the root of the copy, evaluated on a concrete tree. -/
theorem claim1_amended_holds :
    copytreeT (some (fun _ _ => [])) ["WTF"] (.dir srcNested) =
      .dir (copyFolderDiff (some (fun _ _ => [])) ["WTF"] srcNested .nil).1 :=
  claim1_amended (fun _ _ => []) ["WTF"] srcNested (fun _ _ _ => rfl)

/-! ### Claim C2: deletion of deselected characters.

filecmp.dircmp is invoked with the excluded names as its ignore list,
which hides those names from both sides of the comparison: a deselected
character whose folder is still present in the source listing is
therefore neither compared nor deleted, and survives in the destination.
Only destination entries absent from the source listing (and not
excluded) are deleted. -/

/-- The scanned characters A, B, C of account Acc on realm Realm. -/
def availABC : List (String × CharInfo) :=
  [("_retail_:Acc:Realm:A", ⟨"_retail_", "Acc", "Realm", "A"⟩),
   ("_retail_:Acc:Realm:B", ⟨"_retail_", "Acc", "Realm", "B"⟩),
   ("_retail_:Acc:Realm:C", ⟨"_retail_", "Acc", "Realm", "C"⟩)]

/-- A saved explicit selection keeping only character A. -/
def cfgOnlyA : FilterCfg :=
  ⟨"WTF", "_retail_", true, [("_retail_", ["Acc"])],
   [("_explicit_selection", []), ("_retail_", ["_retail_:Acc:Realm:A"])],
   availABC⟩

/-- The WTF tree holding character folders A, B, C under
Account/Acc/Realm. -/
def wtfABC : FSEntries :=
  .dir "Account"
    (.dir "Acc" (.dir "Realm"
      (.dir "A" .nil (.dir "B" .nil (.dir "C" .nil .nil))) .nil) .nil) .nil

/-- Claim C2 (counterexample): the destination contains character folders
A, B, C, the filter selects only A, and the source still lists A, B, C;
after one differential pass the destination realm directory still
contains A, B and C (the engine hides B and C from the comparison instead
of deleting them), not exactly A. -/
theorem claim2_counterexample :
    ((copyFolderDiff (some (ignoreFunction cfgOnlyA)) ["WTF"] wtfABC
        wtfABC).1.getPath ["Account", "Acc", "Realm"]).map
        (fun t => match t with | .dir es => es.names | .file _ => []) =
      some ["A", "B", "C"] := by
  decide

/-- Claim C2 (amended): a differential pass deletes exactly the
destination entries that are absent from the source directory listing
and not in the exclusion list; a deselected character still listed in
the source is hidden from the comparison and survives.  Consequently,
when the source realm directory lists only the selected character A, one
pass over a destination holding A, B and C leaves a destination listing
exactly A, whatever the four folder contents are. -/
theorem claim2_amended (ta tb tc td : FSTree) :
    ((copyFolderDiff (some (ignoreFunction cfgOnlyA))
        ["WTF", "Account", "Acc", "Realm"]
        (FSEntries.consT "A" ta .nil)
        (FSEntries.consT "A" tb (.consT "B" tc (.consT "C" td .nil)))).1.names =
      ["A"]) := by
  have hsel : List.lookup "_retail_"
      [("_explicit_selection", ([] : List String)),
       ("_retail_", ["_retail_:Acc:Realm:A"])] =
      some ["_retail_:Acc:Realm:A"] := by decide
  cases ta <;> cases tb <;> cases tc <;> cases td <;>
    simp [copyFolderDiff, wrapSync, syncEntries, keptEntries, deletedCount,
      FSEntries.consT, FSEntries.lookup, FSEntries.names, FSEntries.append,
      FSEntries.names_append, ignApply, ignoreFunction, rule1, rule2, rule3,
      rule4, cfgOnlyA, availABC, selectedCharsFor, accountIdx, isDirAt,
      FSTree.isDir, FSEntries.append_nil, hsel] <;>
    (try split) <;> simp [FSEntries.names]

/-! ### Claim C3: explicitly empty selection.

CharacterDialog._save stores a version key in the selected-characters
mapping only for versions with at least one selected character: saving an
empty selection stores only the _explicit_selection marker.  The dialog
default-state logic then shows every character deselected, but
_create_ignore_function rule 4 requires the version key to be present and
therefore excludes nothing: the sync filter syncs every character, in
contradiction with the claimed behaviour. -/

/-- The selected-characters mapping produced by saving an explicitly
empty selection: only the marker key. -/
def emptySelection : List (String × List String) := [("_explicit_selection", [])]

/-- Claim C3 (code divergence at the failing input): with an explicitly
empty saved selection, the dialog inclusion check returns false for every
character of the version, yet the engine ignore function excludes no
character folder at the realm directory, and a differential pass into an
empty destination copies all three character folders. -/
theorem claim3_divergence :
    defaultSelected emptySelection "_retail_" "_retail_:Acc:Realm:A" = false ∧
    defaultSelected emptySelection "_retail_" "_retail_:Acc:Realm:B" = false ∧
    defaultSelected emptySelection "_retail_" "_retail_:Acc:Realm:C" = false ∧
    ignoreFunction ⟨"WTF", "_retail_", true, [], emptySelection, availABC⟩
        ["WTF", "Account", "Acc", "Realm"]
        (.dir "A" .nil (.dir "B" .nil (.dir "C" .nil .nil))) = [] ∧
    ((copyFolderDiff
        (some (ignoreFunction ⟨"WTF", "_retail_", true, [], emptySelection, availABC⟩))
        ["WTF"] wtfABC .nil).1.getPath ["Account", "Acc", "Realm"]).map
        (fun t => match t with | .dir es => es.names | .file _ => []) =
      some ["A", "B", "C"] := by
  decide

/-! ### Claim C4: no explicit selection ever saved.

The dialog inclusion check consults the marker and defaults to true, but
the engine ignore function never consults the marker: rules 3 and 4 fire
whenever the version key is present in the mappings, marker or not.  The
claim holds only for mappings that do not carry the version key (in
particular the empty first-run mappings). -/

/-- Claim C4 (counterexample): a selection state with no explicit
selection ever saved (marker absent) but a populated selected-accounts
mapping: the inclusion check returns true, yet the sync filter excludes
account folder Acc2, so the filter does not ignore the mapping contents. -/
theorem claim4_counterexample :
    defaultSelected [] "_retail_" "_retail_:Acc2:Realm:A" = true ∧
    ignoreFunction ⟨"WTF", "_retail_", true, [("_retail_", ["Acc1"])], [], []⟩
        ["WTF", "Account"]
        (.dir "Acc1" .nil (.dir "Acc2" .nil .nil)) = ["Acc2"] := by
  decide

/-- Claim C4 (amended): with the explicit-selection marker absent, the
dialog inclusion check returns true for every character regardless of
the mapping contents; the engine filter ignores no account or character
folder provided the mappings are empty (the only state reachable without
a save), because the filter itself consults the mappings, not the
marker. -/
theorem claim4_amended (sc : List (String × List String))
    (v k st ver : String) (av : List (String × CharInfo))
    (dir : List String) (files : FSEntries)
    (hm : (sc.lookup "_explicit_selection").isSome = false)
    (hw : dir.getLast? ≠ some "WTF") :
    defaultSelected sc v k = true ∧
    ignoreFunction ⟨st, ver, true, [], [], av⟩ dir files = [] := by
  constructor
  · simp [defaultSelected, hm]
  · simp [ignoreFunction, rule1, rule2, rule3, rule4, hw, List.lookup]

/-- Claim C4 (witness for the amended theorem): the first-run state with
empty mappings, at the account directory of a concrete tree. -/
theorem claim4_amended_holds :
    defaultSelected [] "_retail_" "_retail_:Acc:Realm:A" = true ∧
    ignoreFunction ⟨"WTF", "_retail_", true, [], [], []⟩ ["WTF", "Account"]
      (.dir "Acc1" .nil (.dir "Acc2" .nil .nil)) = [] :=
  claim4_amended [] "_retail_" "_retail_:Acc:Realm:A" "WTF" "_retail_" []
    ["WTF", "Account"] (.dir "Acc1" .nil (.dir "Acc2" .nil .nil))
    (by decide) (by decide)

/-! ### Claim C5: idempotence of the differential copy.

Supporting lemmas: the result of one differential pass, looked at
per-name, is a fixed point of a second pass over an unchanged source. -/

theorem kept_append (s i : List String) (a b : FSEntries) :
    keptEntries s i (a.append b) =
      (keptEntries s i a).append (keptEntries s i b) := by
  induction a with
  | nil => rfl
  | file m c r ih =>
    by_cases h : m ∉ s ∧ m ∈ i <;>
      simp [FSEntries.append, keptEntries, h, ih]
  | dir m d r ihE ihR =>
    by_cases h : m ∉ s ∧ m ∈ i <;>
      simp [FSEntries.append, keptEntries, h, ihR]

theorem kept_sub_nil (s i : List String) (es : FSEntries)
    (h : ∀ n ∈ es.names, n ∈ s) : keptEntries s i es = .nil := by
  induction es with
  | nil => rfl
  | file m c r ih =>
    have hm : m ∈ s := h m (by simp [FSEntries.names])
    simp [keptEntries, hm, ih fun n hn => h n (by simp [FSEntries.names, hn])]
  | dir m d r ihE ihR =>
    have hm : m ∈ s := h m (by simp [FSEntries.names])
    simp [keptEntries, hm, ihR fun n hn => h n (by simp [FSEntries.names, hn])]

theorem kept_idem (s i : List String) (es : FSEntries) :
    keptEntries s i (keptEntries s i es) = keptEntries s i es := by
  induction es with
  | nil => rfl
  | file m c r ih =>
    by_cases h : m ∉ s ∧ m ∈ i <;>
      simp [keptEntries, h, ih]
  | dir m d r ihE ihR =>
    by_cases h : m ∉ s ∧ m ∈ i <;>
      simp [keptEntries, h, ihR]

theorem kept_lookup_none (s i : List String) (es : FSEntries) (n : String)
    (h : n ∈ s) : (keptEntries s i es).lookup n = none := by
  induction es with
  | nil => rfl
  | file m c r ih =>
    by_cases hm : m ∉ s ∧ m ∈ i
    · have hne : m ≠ n := fun he => hm.1 (he ▸ h)
      simp [keptEntries, hm, FSEntries.lookup, hne, ih]
    · simp [keptEntries, hm, ih]
  | dir m d r ihE ihR =>
    by_cases hm : m ∉ s ∧ m ∈ i
    · have hne : m ≠ n := fun he => hm.1 (he ▸ h)
      simp [keptEntries, hm, FSEntries.lookup, hne, ihR]
    · simp [keptEntries, hm, ihR]

theorem deleted_append (s i : List String) (a b : FSEntries) :
    deletedCount s i (a.append b) =
      deletedCount s i a + deletedCount s i b := by
  induction a with
  | nil => simp [FSEntries.append, deletedCount]
  | file m c r ih =>
    simp only [FSEntries.append, deletedCount, ih]
    omega
  | dir m d r ihE ihR =>
    simp only [FSEntries.append, deletedCount, ihR]
    omega

theorem deleted_sub_zero (s i : List String) (es : FSEntries)
    (h : ∀ n ∈ es.names, n ∈ s) : deletedCount s i es = 0 := by
  induction es with
  | nil => rfl
  | file m c r ih =>
    have hm : m ∈ s := h m (by simp [FSEntries.names])
    simp [deletedCount, hm, ih fun n hn => h n (by simp [FSEntries.names, hn])]
  | dir m d r ihE ihR =>
    have hm : m ∈ s := h m (by simp [FSEntries.names])
    simp [deletedCount, hm, ihR fun n hn => h n (by simp [FSEntries.names, hn])]

theorem deleted_kept_zero (s i : List String) (es : FSEntries) :
    deletedCount s i (keptEntries s i es) = 0 := by
  induction es with
  | nil => rfl
  | file m c r ih =>
    by_cases hm : m ∉ s ∧ m ∈ i
    · simp [keptEntries, hm, deletedCount, hm.2, ih]
    · simp [keptEntries, hm, ih]
  | dir m d r ihE ihR =>
    by_cases hm : m ∉ s ∧ m ∈ i
    · simp [keptEntries, hm, deletedCount, hm.2, ihR]
    · simp [keptEntries, hm, ihR]

theorem wfb_lookup_dir (es : FSEntries) (h : es.wfb = true) (n : String)
    (x : FSEntries) (hl : es.lookup n = some (.dir x)) : x.wfb = true := by
  induction es with
  | nil => simp [FSEntries.lookup] at hl
  | file m c r ih =>
    simp only [FSEntries.wfb, Bool.and_eq_true] at h
    by_cases hm : m = n
    · simp [FSEntries.lookup, hm] at hl
    · simp only [FSEntries.lookup, hm, if_false] at hl
      exact ih h.2 hl
  | dir m d r ihE ihR =>
    simp only [FSEntries.wfb, Bool.and_eq_true] at h
    by_cases hm : m = n
    · simp only [FSEntries.lookup, hm, if_true, Option.some.injEq] at hl
      cases hl
      exact h.1.2
    · simp only [FSEntries.lookup, hm, if_false] at hl
      exact ihR h.2 hl

theorem sync_names_sub (ign : Option Ign) (path ignored : List String) :
    ∀ (se de : FSEntries) (n : String),
      n ∈ (syncEntries ign path ignored se de).1.names → n ∈ se.names := by
  intro se
  induction se with
  | nil => intro de m hm; simp [syncEntries, FSEntries.names] at hm
  | file n c r ih =>
    intro de m hm
    by_cases hn : n ∈ ignored
    · cases hl : de.lookup n with
      | some dt =>
        simp only [syncEntries, hn, if_pos, hl] at hm
        rw [FSEntries.names_consT] at hm
        rcases List.mem_cons.mp hm with h | h
        · simp [FSEntries.names, h]
        · simp [FSEntries.names, ih de m h]
      | none =>
        simp only [syncEntries, hn, if_pos, hl] at hm
        simp [FSEntries.names, ih de m hm]
    · cases hl : de.lookup n with
      | none =>
        simp only [syncEntries, hn, hl, if_neg, not_false_iff] at hm
        simp only [FSEntries.names, List.mem_cons] at hm ⊢
        rcases hm with h | h
        · exact Or.inl h
        · exact Or.inr (ih de m h)
      | some dt =>
        cases dt with
        | file dc =>
          by_cases hc : c = dc <;>
          · simp only [syncEntries, hn, hl, if_neg, not_false_iff, hc] at hm
            simp only [FSEntries.names, List.mem_cons] at hm ⊢
            first
              | (rcases hm with h | h
                 · exact Or.inl h
                 · exact Or.inr (ih de m h))
        | dir des =>
          simp only [syncEntries, hn, hl, if_neg, not_false_iff] at hm
          simp only [FSEntries.names, List.mem_cons] at hm ⊢
          rcases hm with h | h
          · exact Or.inl h
          · exact Or.inr (ih de m h)
  | dir n d r ihE ihR =>
    intro de m hm
    by_cases hn : n ∈ ignored
    · cases hl : de.lookup n with
      | some dt =>
        simp only [syncEntries, hn, if_pos, hl] at hm
        rw [FSEntries.names_consT] at hm
        rcases List.mem_cons.mp hm with h | h
        · simp [FSEntries.names, h]
        · simp [FSEntries.names, ihR de m h]
      | none =>
        simp only [syncEntries, hn, if_pos, hl] at hm
        simp [FSEntries.names, ihR de m hm]
    · cases hl : de.lookup n with
      | none =>
        simp only [syncEntries, hn, hl, if_neg, not_false_iff] at hm
        simp only [FSEntries.names, List.mem_cons] at hm ⊢
        rcases hm with h | h
        · exact Or.inl h
        · exact Or.inr (ihR de m h)
      | some dt =>
        cases dt with
        | file dc =>
          simp only [syncEntries, hn, hl, if_neg, not_false_iff] at hm
          simp only [FSEntries.names, List.mem_cons] at hm ⊢
          rcases hm with h | h
          · exact Or.inl h
          · exact Or.inr (ihR de m h)
        | dir des =>
          simp only [syncEntries, hn, hl, if_neg, not_false_iff] at hm
          simp only [FSEntries.names, List.mem_cons] at hm ⊢
          rcases hm with h | h
          · exact Or.inl h
          · exact Or.inr (ihR de m h)

theorem sync_lookup_none (ign : Option Ign) (path ignored : List String)
    (se de : FSEntries) (n : String) (h : n ∉ se.names) :
    (syncEntries ign path ignored se de).1.lookup n = none :=
  FSEntries.lookup_eq_none _ _ fun hm => h (sync_names_sub ign path ignored se de n hm)

theorem kept_post (ign : Option Ign) (path i : List String) (se de : FSEntries) :
    keptEntries se.names i
        ((syncEntries ign path i se de).1.append (keptEntries se.names i de)) =
      keptEntries se.names i de := by
  rw [kept_append,
    kept_sub_nil se.names i _ (fun n hn => sync_names_sub ign path i se de n hn),
    kept_idem]
  rfl

theorem deleted_post (ign : Option Ign) (path i : List String) (se de : FSEntries) :
    deletedCount se.names i
        ((syncEntries ign path i se de).1.append (keptEntries se.names i de)) = 0 := by
  rw [deleted_append,
    deleted_sub_zero se.names i _ (fun n hn => sync_names_sub ign path i se de n hn),
    deleted_kept_zero]

theorem lookup_post (ign : Option Ign) (path i : List String) (se de : FSEntries)
    (n : String) (hn : n ∈ se.names) :
    ((syncEntries ign path i se de).1.append
        (keptEntries se.names i de)).lookup n =
      (syncEntries ign path i se de).1.lookup n := by
  rw [FSEntries.lookup_append]
  cases h : (syncEntries ign path i se de).1.lookup n with
  | some t => rfl
  | none => simp [kept_lookup_none se.names i de n hn]

/-- A differential pass of a well-formed directory against itself leaves
it unchanged, with no copies and no deletions. -/
theorem sync_self (se : FSEntries) (hw : se.wfb = true) :
    ∀ (ign : Option Ign) (path ignored : List String) (de : FSEntries),
      (∀ m ∈ se.names, de.lookup m = se.lookup m) →
      syncEntries ign path ignored se de = (se, 0, 0) := by
  induction se with
  | nil => intro ign path ignored de _; rfl
  | file n c r ih =>
    intro ign path ignored de hde
    simp only [FSEntries.wfb, Bool.and_eq_true] at hw
    have hnr : n ∉ r.names := by
      have := hw.1
      simp at this
      exact this
    have hrest : syncEntries ign path ignored r de = (r, 0, 0) := by
      refine ih hw.2 ign path ignored de fun m hm => ?_
      have hne : n ≠ m := fun he => hnr (he ▸ hm)
      rw [hde m (by simp [FSEntries.names, hm]), FSEntries.lookup,
        if_neg hne]
    have hdn : de.lookup n = some (.file c) := by
      rw [hde n (by simp [FSEntries.names]), FSEntries.lookup, if_pos rfl]
    by_cases hn : n ∈ ignored <;>
      simp [syncEntries, hn, hdn, hrest, FSEntries.consT]
  | dir n d r ihE ihR =>
    intro ign path ignored de hde
    simp only [FSEntries.wfb, Bool.and_eq_true] at hw
    have hnr : n ∉ r.names := by
      have := hw.1.1
      simp at this
      exact this
    have hrest : syncEntries ign path ignored r de = (r, 0, 0) := by
      refine ihR hw.2 ign path ignored de fun m hm => ?_
      have hne : n ≠ m := fun he => hnr (he ▸ hm)
      rw [hde m (by simp [FSEntries.names, hm]), FSEntries.lookup,
        if_neg hne]
    have hdn : de.lookup n = some (.dir d) := by
      rw [hde n (by simp [FSEntries.names]), FSEntries.lookup, if_pos rfl]
    have hsub : ∀ p2, syncEntries ign p2 (ignApply ign p2 d) d d = (d, 0, 0) :=
      fun p2 => ihE hw.1.2 ign p2 (ignApply ign p2 d) d fun _ _ => rfl
    have hkept : ∀ i2, keptEntries d.names i2 d = .nil :=
      fun i2 => kept_sub_nil d.names i2 d fun _ hm => hm
    have hdel : ∀ i2, deletedCount d.names i2 d = 0 :=
      fun i2 => deleted_sub_zero d.names i2 d fun _ hm => hm
    by_cases hn : n ∈ ignored <;>
      simp [syncEntries, hn, hdn, hrest, FSEntries.consT, wrapSync, hsub,
        hkept, hdel, FSEntries.append_nil]

/-- The central fixed-point lemma: if D agrees, on every source name,
with the result of one differential pass from se into de, then a pass
from se into D performs no copies and no deletions and reproduces that
result. -/
theorem sync_fix : ∀ (se : FSEntries), se.wfb = true →
    ∀ (ign : Option Ign) (path ignored : List String) (de D : FSEntries),
      de.wfb = true →
      (∀ n ∈ se.names, D.lookup n = (syncEntries ign path ignored se de).1.lookup n) →
      syncEntries ign path ignored se D =
        ((syncEntries ign path ignored se de).1, 0, 0) := by
  intro se
  induction se with
  | nil => intro _ ign path ignored de D _ _; rfl
  | file n c r ih =>
    intro hws ign path ignored de D hwd hD
    simp only [FSEntries.wfb, Bool.and_eq_true] at hws
    have hnr : n ∉ r.names := by
      have := hws.1
      simp at this
      exact this
    by_cases hn : n ∈ ignored
    · cases hl : de.lookup n with
      | some dt =>
        have hM : (syncEntries ign path ignored (.file n c r) de).1 =
            .consT n dt (syncEntries ign path ignored r de).1 := by
          simp [syncEntries, hn, hl]
        have hrest : syncEntries ign path ignored r D =
            ((syncEntries ign path ignored r de).1, 0, 0) := by
          refine ih hws.2 ign path ignored de D hwd fun m hm => ?_
          have hne : n ≠ m := fun he => hnr (he ▸ hm)
          rw [hD m (by simp [FSEntries.names, hm]), hM,
            FSEntries.lookup_consT_ne n m dt _ hne]
        have hDn : D.lookup n = some dt := by
          rw [hD n (by simp [FSEntries.names]), hM,
            FSEntries.lookup_consT_self]
        simp [syncEntries, hn, hDn, hrest, hM, hl]
      | none =>
        have hM : (syncEntries ign path ignored (.file n c r) de).1 =
            (syncEntries ign path ignored r de).1 := by
          simp [syncEntries, hn, hl]
        have hrest : syncEntries ign path ignored r D =
            ((syncEntries ign path ignored r de).1, 0, 0) := by
          refine ih hws.2 ign path ignored de D hwd fun m hm => ?_
          rw [hD m (by simp [FSEntries.names, hm]), hM]
        have hDn : D.lookup n = none := by
          rw [hD n (by simp [FSEntries.names]), hM]
          exact sync_lookup_none ign path ignored r de n hnr
        simp [syncEntries, hn, hDn, hrest, hM, hl]
    · cases hl : de.lookup n with
      | none =>
        have hM : (syncEntries ign path ignored (.file n c r) de).1 =
            .file n c (syncEntries ign path ignored r de).1 := by
          simp [syncEntries, hn, hl]
        have hrest : syncEntries ign path ignored r D =
            ((syncEntries ign path ignored r de).1, 0, 0) := by
          refine ih hws.2 ign path ignored de D hwd fun m hm => ?_
          have hne : n ≠ m := fun he => hnr (he ▸ hm)
          rw [hD m (by simp [FSEntries.names, hm]), hM, FSEntries.lookup,
            if_neg hne]
        have hDn : D.lookup n = some (.file c) := by
          rw [hD n (by simp [FSEntries.names]), hM, FSEntries.lookup,
            if_pos rfl]
        simp [syncEntries, hn, hDn, hrest, hM, hl]
      | some dt =>
        cases dt with
        | file dc =>
          by_cases hc : c = dc
          · subst hc
            have hM : (syncEntries ign path ignored (.file n c r) de).1 =
                .file n c (syncEntries ign path ignored r de).1 := by
              simp [syncEntries, hn, hl]
            have hrest : syncEntries ign path ignored r D =
                ((syncEntries ign path ignored r de).1, 0, 0) := by
              refine ih hws.2 ign path ignored de D hwd fun m hm => ?_
              have hne : n ≠ m := fun he => hnr (he ▸ hm)
              rw [hD m (by simp [FSEntries.names, hm]), hM, FSEntries.lookup,
                if_neg hne]
            have hDn : D.lookup n = some (.file c) := by
              rw [hD n (by simp [FSEntries.names]), hM, FSEntries.lookup,
                if_pos rfl]
            simp [syncEntries, hn, hDn, hrest, hM, hl]
          · have hM : (syncEntries ign path ignored (.file n c r) de).1 =
                .file n c (syncEntries ign path ignored r de).1 := by
              simp [syncEntries, hn, hl, hc]
            have hrest : syncEntries ign path ignored r D =
                ((syncEntries ign path ignored r de).1, 0, 0) := by
              refine ih hws.2 ign path ignored de D hwd fun m hm => ?_
              have hne : n ≠ m := fun he => hnr (he ▸ hm)
              rw [hD m (by simp [FSEntries.names, hm]), hM, FSEntries.lookup,
                if_neg hne]
            have hDn : D.lookup n = some (.file c) := by
              rw [hD n (by simp [FSEntries.names]), hM, FSEntries.lookup,
                if_pos rfl]
            simp [syncEntries, hn, hDn, hrest, hM, hl, hc]
        | dir des =>
          have hM : (syncEntries ign path ignored (.file n c r) de).1 =
              .dir n des (syncEntries ign path ignored r de).1 := by
            simp [syncEntries, hn, hl]
          have hrest : syncEntries ign path ignored r D =
              ((syncEntries ign path ignored r de).1, 0, 0) := by
            refine ih hws.2 ign path ignored de D hwd fun m hm => ?_
            have hne : n ≠ m := fun he => hnr (he ▸ hm)
            rw [hD m (by simp [FSEntries.names, hm]), hM, FSEntries.lookup,
              if_neg hne]
          have hDn : D.lookup n = some (.dir des) := by
            rw [hD n (by simp [FSEntries.names]), hM, FSEntries.lookup,
              if_pos rfl]
          simp [syncEntries, hn, hDn, hrest, hM, hl]
  | dir n d r ihE ihR =>
    intro hws ign path ignored de D hwd hD
    simp only [FSEntries.wfb, Bool.and_eq_true] at hws
    have hnr : n ∉ r.names := by
      have := hws.1.1
      simp at this
      exact this
    by_cases hn : n ∈ ignored
    · cases hl : de.lookup n with
      | some dt =>
        have hM : (syncEntries ign path ignored (.dir n d r) de).1 =
            .consT n dt (syncEntries ign path ignored r de).1 := by
          simp [syncEntries, hn, hl]
        have hrest : syncEntries ign path ignored r D =
            ((syncEntries ign path ignored r de).1, 0, 0) := by
          refine ihR hws.2 ign path ignored de D hwd fun m hm => ?_
          have hne : n ≠ m := fun he => hnr (he ▸ hm)
          rw [hD m (by simp [FSEntries.names, hm]), hM,
            FSEntries.lookup_consT_ne n m dt _ hne]
        have hDn : D.lookup n = some dt := by
          rw [hD n (by simp [FSEntries.names]), hM,
            FSEntries.lookup_consT_self]
        simp [syncEntries, hn, hDn, hrest, hM, hl]
      | none =>
        have hM : (syncEntries ign path ignored (.dir n d r) de).1 =
            (syncEntries ign path ignored r de).1 := by
          simp [syncEntries, hn, hl]
        have hrest : syncEntries ign path ignored r D =
            ((syncEntries ign path ignored r de).1, 0, 0) := by
          refine ihR hws.2 ign path ignored de D hwd fun m hm => ?_
          rw [hD m (by simp [FSEntries.names, hm]), hM]
        have hDn : D.lookup n = none := by
          rw [hD n (by simp [FSEntries.names]), hM]
          exact sync_lookup_none ign path ignored r de n hnr
        simp [syncEntries, hn, hDn, hrest, hM, hl]
    · cases hl : de.lookup n with
      | none =>
        have hM : (syncEntries ign path ignored (.dir n d r) de).1 =
            .dir n d (syncEntries ign path ignored r de).1 := by
          simp [syncEntries, hn, hl]
        have hrest : syncEntries ign path ignored r D =
            ((syncEntries ign path ignored r de).1, 0, 0) := by
          refine ihR hws.2 ign path ignored de D hwd fun m hm => ?_
          have hne : n ≠ m := fun he => hnr (he ▸ hm)
          rw [hD m (by simp [FSEntries.names, hm]), hM, FSEntries.lookup,
            if_neg hne]
        have hDn : D.lookup n = some (.dir d) := by
          rw [hD n (by simp [FSEntries.names]), hM, FSEntries.lookup,
            if_pos rfl]
        have hself : syncEntries ign (path ++ [n])
            (ignApply ign (path ++ [n]) d) d d = (d, 0, 0) :=
          sync_self d hws.1.2 ign (path ++ [n]) _ d fun _ _ => rfl
        have hkept : keptEntries d.names (ignApply ign (path ++ [n]) d) d = .nil :=
          kept_sub_nil d.names _ d fun _ hm => hm
        have hdel : deletedCount d.names (ignApply ign (path ++ [n]) d) d = 0 :=
          deleted_sub_zero d.names _ d fun _ hm => hm
        simp [syncEntries, hn, hDn, hrest, hM, hl, wrapSync, hself, hkept, hdel,
          FSEntries.append_nil]
      | some dt =>
        cases dt with
        | file dc =>
          have hM : (syncEntries ign path ignored (.dir n d r) de).1 =
              .file n dc (syncEntries ign path ignored r de).1 := by
            simp [syncEntries, hn, hl]
          have hrest : syncEntries ign path ignored r D =
              ((syncEntries ign path ignored r de).1, 0, 0) := by
            refine ihR hws.2 ign path ignored de D hwd fun m hm => ?_
            have hne : n ≠ m := fun he => hnr (he ▸ hm)
            rw [hD m (by simp [FSEntries.names, hm]), hM, FSEntries.lookup,
              if_neg hne]
          have hDn : D.lookup n = some (.file dc) := by
            rw [hD n (by simp [FSEntries.names]), hM, FSEntries.lookup,
              if_pos rfl]
          simp [syncEntries, hn, hDn, hrest, hM, hl]
        | dir de2 =>
          have hM : (syncEntries ign path ignored (.dir n d r) de).1 =
              .dir n ((syncEntries ign (path ++ [n])
                  (ignApply ign (path ++ [n]) d) d de2).1.append
                (keptEntries d.names (ignApply ign (path ++ [n]) d) de2))
                (syncEntries ign path ignored r de).1 := by
            simp [syncEntries, hn, hl, wrapSync]
          have hrest : syncEntries ign path ignored r D =
              ((syncEntries ign path ignored r de).1, 0, 0) := by
            refine ihR hws.2 ign path ignored de D hwd fun m hm => ?_
            have hne : n ≠ m := fun he => hnr (he ▸ hm)
            rw [hD m (by simp [FSEntries.names, hm]), hM, FSEntries.lookup,
              if_neg hne]
          have hDn : D.lookup n = some (.dir
              ((syncEntries ign (path ++ [n]) (ignApply ign (path ++ [n]) d)
                  d de2).1.append
                (keptEntries d.names (ignApply ign (path ++ [n]) d) de2))) := by
            rw [hD n (by simp [FSEntries.names]), hM, FSEntries.lookup,
              if_pos rfl]
          have hsub : syncEntries ign (path ++ [n])
              (ignApply ign (path ++ [n]) d) d
              ((syncEntries ign (path ++ [n]) (ignApply ign (path ++ [n]) d)
                  d de2).1.append
                (keptEntries d.names (ignApply ign (path ++ [n]) d) de2)) =
              ((syncEntries ign (path ++ [n]) (ignApply ign (path ++ [n]) d)
                d de2).1, 0, 0) := by
            refine ihE hws.1.2 ign (path ++ [n]) _ de2 _
              (wfb_lookup_dir de hwd n de2 hl) fun m hm => ?_
            exact lookup_post ign (path ++ [n]) _ d de2 m hm
          simp [syncEntries, hn, hDn, hrest, hM, hl, wrapSync, hsub,
            kept_post, deleted_post]

/-- Claim C5: running the differential copy twice in a row with an
unchanged source performs zero copies and zero deletions on the second
run and reproduces the destination tree of the first run (stated for
well-formed directory listings: no duplicate names at any level). -/
theorem claim5_diff_idempotent (ign : Option Ign) (path : List String)
    (se de : FSEntries) (hs : se.wfb = true) (hd : de.wfb = true) :
    copyFolderDiff ign path se (copyFolderDiff ign path se de).1 =
      ((copyFolderDiff ign path se de).1, 0, 0) := by
  have hfix := sync_fix se hs ign path (ignApply ign path se) de
    ((syncEntries ign path (ignApply ign path se) se de).1.append
      (keptEntries se.names (ignApply ign path se) de))
    hd (fun n hn => lookup_post ign path (ignApply ign path se) se de n hn)
  simp [copyFolderDiff, wrapSync, hfix, kept_post, deleted_post]

/-- Claim C5 (witness): the idempotence theorem applied to a concrete
source, filter and destination holding extra, changed and excluded
entries. -/
theorem claim5_diff_idempotent_holds :
    copyFolderDiff (some (ignoreFunction cfgOnlyA)) ["WTF"] wtfABC
        (copyFolderDiff (some (ignoreFunction cfgOnlyA)) ["WTF"] wtfABC
          (.file "junk" [9] (.file "Config.wtf" [3] .nil))).1 =
      ((copyFolderDiff (some (ignoreFunction cfgOnlyA)) ["WTF"] wtfABC
          (.file "junk" [9] (.file "Config.wtf" [3] .nil))).1, 0, 0) :=
  claim5_diff_idempotent (some (ignoreFunction cfgOnlyA)) ["WTF"] wtfABC
    (.file "junk" [9] (.file "Config.wtf" [3] .nil)) (by decide) (by decide)

/-! ### Claim C9: the scan engine (DirectoryManager.scan_directory). -/

/-- The fixed version map of constants.py, in insertion order. -/
def VERSION_MAP : List (String × String) :=
  [("_retail_", "Retail"), ("_classic_", "Classic"), ("_classic_era_", "Classic Era")]

/-- name.startswith of Python for the hidden-entry marker. -/
def isHidden (s : String) : Bool :=
  match s.data with
  | [] => false
  | c :: _ => c = '.'

/-- The colon-joined character key. -/
def charKey (v a sv n : String) : String :=
  v ++ ":" ++ a ++ ":" ++ sv ++ ":" ++ n

/-- Characters scanned below one realm (server) directory: each
non-hidden directory entry. -/
def charsOfServer (v a sv : String) : FSEntries → List (String × CharInfo)
  | .nil => []
  | .file _ _ r => charsOfServer v a sv r
  | .dir n _ r =>
    (if isHidden n = false then [(charKey v a sv n, ⟨v, a, sv, n⟩)] else []) ++
      charsOfServer v a sv r

/-- Characters scanned below one account directory: walk the non-hidden
realm directories, skipping the entry literally named SavedVariables. -/
def charsOfAccount (v a : String) : FSEntries → List (String × CharInfo)
  | .nil => []
  | .file _ _ r => charsOfAccount v a r
  | .dir n es r =>
    (if isHidden n = false ∧ n ≠ "SavedVariables" then charsOfServer v a n es
     else []) ++ charsOfAccount v a r

/-- The account names scanned below WTF/Account: each non-hidden
directory entry. -/
def accountsIn : FSEntries → List String
  | .nil => []
  | .file _ _ r => accountsIn r
  | .dir n _ r => (if isHidden n = false then [n] else []) ++ accountsIn r

/-- All characters scanned below WTF/Account. -/
def charsOfWtf (v : String) : FSEntries → List (String × CharInfo)
  | .nil => []
  | .file _ _ r => charsOfWtf v r
  | .dir n es r =>
    (if isHidden n = false then charsOfAccount v n es else []) ++ charsOfWtf v r

/-- DirectoryManager.scan_directory over a given version list: for each
version directory that exists, record it as available; below its
WTF/Account directory collect accounts and characters; a version with no
accounts contributes nothing to available-accounts.  The installation
root is optional (none: the path does not exist).  Returns none when the
scan raises (WTF/Account exists but is not a directory, so iterdir
fails). -/
def scanVersions (wow : Option FSEntries) :
    List (String × String) →
      Option (List (String × String) × List (String × List String) ×
        List (String × CharInfo))
  | [] => some ([], [], [])
  | (vdir, vname) :: rest =>
    match wow.bind fun es => es.getPath [vdir] with
    | none => scanVersions wow rest
    | some _ =>
      match wow.bind fun es => es.getPath [vdir, "WTF", "Account"] with
      | some (.dir wtfEs) =>
        (scanVersions wow rest).map fun r =>
          ((vdir, vname) :: r.1,
           (if accountsIn wtfEs ≠ [] then [(vdir, accountsIn wtfEs)] else []) ++
             r.2.1,
           charsOfWtf vdir wtfEs ++ r.2.2)
      | some (.file _) => none
      | none =>
        (scanVersions wow rest).map fun r => ((vdir, vname) :: r.1, r.2.1, r.2.2)

/-- DirectoryManager.scan_directory. -/
def scanDirectory (wow : Option FSEntries) :
    Option (List (String × String) × List (String × List String) ×
      List (String × CharInfo)) :=
  scanVersions wow VERSION_MAP

/-- The account list scan_directory derives for one version. -/
def accountsOf (wow : Option FSEntries) (vdir : String) : List String :=
  match wow.bind fun es => es.getPath [vdir, "WTF", "Account"] with
  | some (.dir es) => accountsIn es
  | _ => []

theorem accountsIn_not_hidden (es : FSEntries) (a : String)
    (h : a ∈ accountsIn es) : isHidden a = false := by
  induction es with
  | nil => simp [accountsIn] at h
  | file n c r ih => exact ih (by simpa [accountsIn] using h)
  | dir n d r ihE ihR =>
    by_cases hn : isHidden n = false
    · simp only [accountsIn, hn, if_pos, List.singleton_append,
        List.mem_cons] at h
      rcases h with h | h
      · exact h ▸ hn
      · exact ihR h
    · simp only [accountsIn, hn, if_neg, List.nil_append] at h
      exact ihR h

theorem charsOfServer_mem (v a sv : String) (es : FSEntries)
    (k : String) (ci : CharInfo) (h : (k, ci) ∈ charsOfServer v a sv es) :
    ci.version = v ∧ ci.account = a ∧ ci.server = sv ∧
      isHidden ci.character = false := by
  induction es with
  | nil => simp [charsOfServer] at h
  | file n c r ih => exact ih (by simpa [charsOfServer] using h)
  | dir n d r ihE ihR =>
    by_cases hn : isHidden n = false
    · simp only [charsOfServer, hn, if_pos, List.singleton_append,
        List.mem_cons, Prod.mk.injEq] at h
      rcases h with ⟨_, h2⟩ | h
      · subst h2; exact ⟨rfl, rfl, rfl, hn⟩
      · exact ihR h
    · simp only [charsOfServer, hn, if_neg, List.nil_append] at h
      exact ihR h

theorem charsOfAccount_mem (v a : String) (es : FSEntries)
    (k : String) (ci : CharInfo) (h : (k, ci) ∈ charsOfAccount v a es) :
    ci.version = v ∧ ci.account = a ∧ isHidden ci.server = false ∧
      isHidden ci.character = false := by
  induction es with
  | nil => simp [charsOfAccount] at h
  | file n c r ih => exact ih (by simpa [charsOfAccount] using h)
  | dir n d r ihE ihR =>
    by_cases hn : isHidden n = false ∧ n ≠ "SavedVariables"
    · simp only [charsOfAccount] at h
      rw [if_pos hn] at h
      rcases List.mem_append.mp h with h | h
      · obtain ⟨h1, h2, h3, h4⟩ := charsOfServer_mem v a n d k ci h
        exact ⟨h1, h2, h3 ▸ hn.1, h4⟩
      · exact ihR h
    · simp only [charsOfAccount, hn, if_neg, List.nil_append] at h
      exact ihR h

theorem charsOfWtf_mem (v : String) (es : FSEntries)
    (k : String) (ci : CharInfo) (h : (k, ci) ∈ charsOfWtf v es) :
    ci.version = v ∧ isHidden ci.account = false ∧
      isHidden ci.server = false ∧ isHidden ci.character = false := by
  induction es with
  | nil => simp [charsOfWtf] at h
  | file n c r ih => exact ih (by simpa [charsOfWtf] using h)
  | dir n d r ihE ihR =>
    by_cases hn : isHidden n = false
    · simp only [charsOfWtf, hn, if_pos, List.mem_append] at h
      rcases h with h | h
      · obtain ⟨h1, h2, h3, h4⟩ := charsOfAccount_mem v n d k ci h
        exact ⟨h1, h2 ▸ hn, h3, h4⟩
      · exact ihR h
    · simp only [charsOfWtf, hn, if_neg, List.nil_append] at h
      exact ihR h

theorem scanVersions_hidden (wow : Option FSEntries) :
    ∀ (vlist : List (String × String)) vs accs chs,
      scanVersions wow vlist = some (vs, accs, chs) →
      (∀ v al, (v, al) ∈ accs → ∀ a ∈ al, isHidden a = false) ∧
      (∀ k ci, (k, ci) ∈ chs → isHidden ci.account = false ∧
        isHidden ci.server = false ∧ isHidden ci.character = false) := by
  intro vlist
  induction vlist with
  | nil =>
    intro vs accs chs h
    simp only [scanVersions, Option.some.injEq] at h
    obtain ⟨rfl, rfl, rfl⟩ := (Prod.mk.injEq _ _ _ _).mp h.symm |>.imp id
      fun h2 => (Prod.mk.injEq _ _ _ _).mp h2
    constructor
    · intro v al hmem; simp at hmem
    · intro k ci hmem; simp at hmem
  | cons hd rest ih =>
    intro vs accs chs h
    obtain ⟨vdir, vname⟩ := hd
    simp only [scanVersions] at h
    cases h1 : wow.bind fun es => es.getPath [vdir] with
    | none =>
      rw [h1] at h
      exact ih vs accs chs h
    | some vt =>
      rw [h1] at h
      cases h2 : wow.bind fun es => es.getPath [vdir, "WTF", "Account"] with
      | none =>
        rw [h2] at h
        cases h3 : scanVersions wow rest with
        | none => rw [h3] at h; simp at h
        | some r =>
          rw [h3] at h
          simp only [Option.map_some, Option.some.injEq] at h
          obtain ⟨r1, r2, r3⟩ := r
          cases h
          exact ih r1 r2 r3 h3
      | some wtfT =>
        rw [h2] at h
        cases wtfT with
        | file c => simp at h
        | dir wtfEs =>
          cases h3 : scanVersions wow rest with
          | none => rw [h3] at h; simp at h
          | some r =>
            rw [h3] at h
            simp only [Option.map_some, Option.some.injEq] at h
            obtain ⟨r1, r2, r3⟩ := r
            obtain ⟨ihA, ihC⟩ := ih r1 r2 r3 h3
            cases h
            constructor
            · intro v al hmem
              rcases List.mem_append.mp hmem with hmem | hmem
              · by_cases he : accountsIn wtfEs ≠ []
                · rw [if_pos he] at hmem
                  simp only [List.mem_singleton, Prod.mk.injEq] at hmem
                  intro a ha
                  exact accountsIn_not_hidden wtfEs a (hmem.2 ▸ ha)
                · simp [he] at hmem
              · exact ihA v al hmem
            · intro k ci hmem
              rcases List.mem_append.mp hmem with hmem | hmem
              · obtain ⟨_, h2', h3', h4'⟩ := charsOfWtf_mem vdir wtfEs k ci hmem
                exact ⟨h2', h3', h4'⟩
              · exact ihC k ci hmem

theorem scanVersions_acc_keys (wow : Option FSEntries) :
    ∀ (vlist : List (String × String)) vs accs chs,
      scanVersions wow vlist = some (vs, accs, chs) →
      ∀ v al, (v, al) ∈ accs → v ∈ vlist.map Prod.fst := by
  intro vlist
  induction vlist with
  | nil =>
    intro vs accs chs h v al hmem
    simp only [scanVersions, Option.some.injEq] at h
    cases h
    simp at hmem
  | cons hd rest ih =>
    intro vs accs chs h v al hmem
    obtain ⟨vdir, vname⟩ := hd
    simp only [scanVersions] at h
    cases h1 : wow.bind fun es => es.getPath [vdir] with
    | none =>
      rw [h1] at h
      exact List.mem_cons_of_mem _ (ih vs accs chs h v al hmem)
    | some vt =>
      rw [h1] at h
      cases h2 : wow.bind fun es => es.getPath [vdir, "WTF", "Account"] with
      | none =>
        rw [h2] at h
        cases h3 : scanVersions wow rest with
        | none => rw [h3] at h; simp at h
        | some r =>
          rw [h3] at h
          simp only [Option.map_some, Option.some.injEq] at h
          obtain ⟨r1, r2, r3⟩ := r
          cases h
          exact List.mem_cons_of_mem _ (ih r1 r2 r3 h3 v al hmem)
      | some wtfT =>
        rw [h2] at h
        cases wtfT with
        | file c => simp at h
        | dir wtfEs =>
          cases h3 : scanVersions wow rest with
          | none => rw [h3] at h; simp at h
          | some r =>
            rw [h3] at h
            simp only [Option.map_some, Option.some.injEq] at h
            obtain ⟨r1, r2, r3⟩ := r
            cases h
            rcases List.mem_append.mp hmem with hmem | hmem
            · by_cases he : accountsIn wtfEs ≠ []
              · rw [if_pos he] at hmem
                simp only [List.mem_singleton, Prod.mk.injEq] at hmem
                simp [hmem.1]
              · simp [he] at hmem
            · exact List.mem_cons_of_mem _ (ih r1 r2 r3 h3 v al hmem)

theorem scanVersions_no_accounts (wow : Option FSEntries) :
    ∀ (vlist : List (String × String)), (vlist.map Prod.fst).Nodup →
      ∀ vs accs chs vdir vname,
      scanVersions wow vlist = some (vs, accs, chs) →
      (vdir, vname) ∈ vlist →
      (wow.bind fun es => es.getPath [vdir]).isSome = true →
      accountsOf wow vdir = [] →
      (vdir, vname) ∈ vs ∧ ∀ al, (vdir, al) ∉ accs := by
  intro vlist
  induction vlist with
  | nil => intro _ vs accs chs vdir vname _ hmem; simp at hmem
  | cons hd rest ih =>
    intro hnd vs accs chs vdir vname h hmem hex hacc
    obtain ⟨v0, n0⟩ := hd
    simp only [List.map_cons, List.nodup_cons] at hnd
    simp only [scanVersions] at h
    rcases List.mem_cons.mp hmem with heq | hmem2
    · obtain ⟨rfl, rfl⟩ := Prod.mk.injEq _ _ _ _ |>.mp heq
      cases h1 : wow.bind fun es => es.getPath [vdir] with
      | none => rw [h1] at hex; simp at hex
      | some vt =>
        rw [h1] at h
        cases h2 : wow.bind fun es => es.getPath [vdir, "WTF", "Account"] with
        | none =>
          rw [h2] at h
          cases h3 : scanVersions wow rest with
          | none => rw [h3] at h; simp at h
          | some r =>
            rw [h3] at h
            simp only [Option.map_some, Option.some.injEq] at h
            obtain ⟨r1, r2, r3⟩ := r
            cases h
            refine ⟨by simp, fun al hal => ?_⟩
            have := scanVersions_acc_keys wow rest r1 r2 r3 h3 vdir al hal
            exact hnd.1 this
        | some wtfT =>
          rw [h2] at h
          cases wtfT with
          | file c => simp at h
          | dir wtfEs =>
            have he : accountsIn wtfEs = [] := by
              have : accountsOf wow vdir = accountsIn wtfEs := by
                simp [accountsOf, h2]
              rw [← this, hacc]
            cases h3 : scanVersions wow rest with
            | none => rw [h3] at h; simp at h
            | some r =>
              rw [h3] at h
              simp only [Option.map_some, Option.some.injEq] at h
              obtain ⟨r1, r2, r3⟩ := r
              cases h
              refine ⟨by simp, fun al hal => ?_⟩
              simp only [he, ne_eq, not_true_eq_false, if_neg,
                List.nil_append, not_false_eq_true] at hal
              have := scanVersions_acc_keys wow rest r1 r2 r3 h3 vdir al
                (by simpa using hal)
              exact hnd.1 this
    · have hvne : vdir ≠ v0 := by
        intro he
        exact hnd.1 (he ▸ List.mem_map_of_mem Prod.fst hmem2)
      cases h1 : wow.bind fun es => es.getPath [v0] with
      | none =>
        rw [h1] at h
        exact ih hnd.2 vs accs chs vdir vname h hmem2 hex hacc
      | some vt =>
        rw [h1] at h
        cases h2 : wow.bind fun es => es.getPath [v0, "WTF", "Account"] with
        | none =>
          rw [h2] at h
          cases h3 : scanVersions wow rest with
          | none => rw [h3] at h; simp at h
          | some r =>
            rw [h3] at h
            simp only [Option.map_some, Option.some.injEq] at h
            obtain ⟨r1, r2, r3⟩ := r
            cases h
            obtain ⟨ih1, ih2⟩ := ih hnd.2 r1 r2 r3 vdir vname h3 hmem2 hex hacc
            exact ⟨List.mem_cons_of_mem _ ih1, ih2⟩
        | some wtfT =>
          rw [h2] at h
          cases wtfT with
          | file c => simp at h
          | dir wtfEs =>
            cases h3 : scanVersions wow rest with
            | none => rw [h3] at h; simp at h
            | some r =>
              rw [h3] at h
              simp only [Option.map_some, Option.some.injEq] at h
              obtain ⟨r1, r2, r3⟩ := r
              cases h
              obtain ⟨ih1, ih2⟩ := ih hnd.2 r1 r2 r3 vdir vname h3 hmem2 hex hacc
              refine ⟨List.mem_cons_of_mem _ ih1, fun al hal => ?_⟩
              rcases List.mem_append.mp hal with hal | hal
              · by_cases he : accountsIn wtfEs ≠ []
                · rw [if_pos he] at hal
                  simp only [List.mem_singleton, Prod.mk.injEq] at hal
                  exact hvne hal.1
                · simp [he] at hal
              · exact ih2 al hal

/-- Claim C9: scanning a missing installation root yields three empty
mappings without an error; hidden (dot-prefixed) directories never
appear among scanned accounts or among the account, realm and character
components of scanned characters; and a version directory that exists
but yields no accounts is reported in available-versions while absent
from available-accounts. -/
theorem claim9_scan (wow : Option FSEntries)
    (vs : List (String × String)) (accs : List (String × List String))
    (chs : List (String × CharInfo)) (vdir vname : String) :
    scanDirectory none = some ([], [], []) ∧
    (scanDirectory wow = some (vs, accs, chs) →
      ((∀ v al, (v, al) ∈ accs → ∀ a ∈ al, isHidden a = false) ∧
       (∀ k ci, (k, ci) ∈ chs → isHidden ci.account = false ∧
         isHidden ci.server = false ∧ isHidden ci.character = false))) ∧
    (scanDirectory wow = some (vs, accs, chs) →
      (vdir, vname) ∈ VERSION_MAP →
      (wow.bind fun es => es.getPath [vdir]).isSome = true →
      accountsOf wow vdir = [] →
      (vdir, vname) ∈ vs ∧ ∀ al, (vdir, al) ∉ accs) := by
  refine ⟨by decide, fun h => scanVersions_hidden wow VERSION_MAP vs accs chs h,
    fun h hv hex hacc => ?_⟩
  exact scanVersions_no_accounts wow VERSION_MAP (by decide) vs accs chs
    vdir vname h hv hex hacc

/-- Claim C9 (witness): a concrete installation holding a hidden account
directory, a populated retail tree and an empty classic version
directory; classic is reported available with no accounts. -/
theorem claim9_scan_holds :
    ((scanDirectory (some (.dir "_retail_" (.dir "WTF" (.dir "Account"
        (.dir ".hidden" .nil (.dir "Acc" (.dir "Realm"
          (.dir "A" .nil .nil) .nil) .nil)) .nil) .nil)
        (.dir "_classic_" .nil .nil)))).map (fun r => r.1) =
      some [("_retail_", "Retail"), ("_classic_", "Classic")]) ∧
    ("_classic_", "Classic") ∈
      [("_retail_", "Retail"), ("_classic_", "Classic")] ∧
    (∀ al, ("_classic_", al) ∉ [("_retail_", ["Acc"])]) := by
  have h := claim9_scan (some (.dir "_retail_" (.dir "WTF" (.dir "Account"
      (.dir ".hidden" .nil (.dir "Acc" (.dir "Realm"
        (.dir "A" .nil .nil) .nil) .nil)) .nil) .nil)
      (.dir "_classic_" .nil .nil)))
    [("_retail_", "Retail"), ("_classic_", "Classic")]
    [("_retail_", ["Acc"])]
    [(charKey "_retail_" "Acc" "Realm" "A", ⟨"_retail_", "Acc", "Realm", "A"⟩)]
    "_classic_" "Classic"
  obtain ⟨h1, h2, h3⟩ := h
  obtain ⟨hmem, hnot⟩ := h3 (by decide) (by decide) (by decide) (by decide)
  exact ⟨by decide, hmem, hnot⟩

/-! ### Claim C10: copy_from_repo reads only qualifying top-level
repository entries (directories named with a leading underscore, enabled,
with an existing counterpart in the installation) and leaves every other
installation entry untouched. -/

/-- name.startswith of Python for the version-directory marker. -/
def startsUnderscore (s : String) : Bool :=
  match s.data with
  | [] => false
  | c :: _ => c = '_'

/-- enabled_versions.get(name, False). -/
def enabledLookup (enabled : List (String × Bool)) (n : String) : Bool :=
  (enabled.lookup n).getD false

/-- The filter configuration copy_from_repo builds for the WTF tree of
one version. -/
def mkWtfCfg (version : String) (scw : Bool) (sa sc : List (String × List String))
    (ac : List (String × CharInfo)) : FilterCfg :=
  ⟨"WTF", version, scw, sa, sc, ac⟩

/-- DirectoryManager._copy_wtf for one version: no-op when the repository
version has no WTF subtree; differential copy when the installation
already has a WTF directory, fresh filtered copytree otherwise.  none
models a raised filesystem error (destination under a file, or a
file/directory shape mismatch). -/
def copyWtf (cfg : FilterCfg) (version : String) (repoV : FSEntries)
    (wowV : FSTree) : Option FSTree :=
  match repoV.lookup "WTF" with
  | none => some wowV
  | some wtfSrc =>
    match wowV with
    | .file _ => none
    | .dir wes =>
      match wes.lookup "WTF" with
      | some wtfDst =>
        match wtfSrc, wtfDst with
        | .dir ses, .dir des =>
          some (.dir (wes.setEntry "WTF"
            (.dir (copyFolderDiff (some (ignoreFunction cfg))
              [version, "WTF"] ses des).1)))
        | _, _ => none
      | none =>
        match wtfSrc with
        | .dir ses =>
          some (.dir (wes.append (.dir "WTF"
            (copytreeE (some (ignoreFunction cfg)) [version, "WTF"]
              (ignApply (some (ignoreFunction cfg)) [version, "WTF"] ses) ses)
            .nil)))
        | .file _ => none

/-- DirectoryManager._copy_addons for one version: unfiltered
differential copy into Interface/AddOns when it exists, otherwise create
the parent and copy the tree in full. -/
def copyAddons (version : String) (repoV : FSEntries) (wowV : FSTree) :
    Option FSTree :=
  match repoV.lookup "AddOns" with
  | none => some wowV
  | some aSrc =>
    match wowV with
    | .file _ => none
    | .dir wes =>
      match wes.getPath ["Interface", "AddOns"] with
      | some aDst =>
        match aSrc, aDst with
        | .dir ses, .dir des =>
          match wes.lookup "Interface" with
          | some (.dir ies) =>
            some (.dir (wes.setEntry "Interface" (.dir (ies.setEntry "AddOns"
              (.dir (copyFolderDiff none [version, "AddOns"] ses des).1)))))
          | _ => none
        | _, _ => none
      | none =>
        match aSrc with
        | .file _ => none
        | .dir ses =>
          match wes.lookup "Interface" with
          | some (.dir ies) =>
            match ies.lookup "AddOns" with
            | some _ => none
            | none =>
              some (.dir (wes.setEntry "Interface"
                (.dir (ies.append (.dir "AddOns"
                  (copytreeE none [version, "AddOns"] [] ses) .nil)))))
          | some (.file _) => none
          | none =>
            some (.dir (wes.append (.dir "Interface"
              (.dir "AddOns" (copytreeE none [version, "AddOns"] [] ses) .nil)
              .nil)))

/-- DirectoryManager.copy_from_repo: iterate the top-level repository
entries; only directories whose name starts with an underscore, that are
enabled and whose version directory exists in the installation are
processed (WTF then AddOns); everything else is skipped.  Returns the
updated installation listing and whether a filesystem error aborted the
walk (the Python exception propagates, leaving earlier effects in
place). -/
def copyFromRepoGo (scw : Bool) (sa sc : List (String × List String))
    (ac : List (String × CharInfo)) (enabled : List (String × Bool)) :
    FSEntries → FSEntries → FSEntries × Bool
  | .nil, w => (w, false)
  | .file _ _ r, w => copyFromRepoGo scw sa sc ac enabled r w
  | .dir n rves r, w =>
    if startsUnderscore n = true then
      if enabledLookup enabled n = true then
        match w.lookup n with
        | none => copyFromRepoGo scw sa sc ac enabled r w
        | some wv =>
          match copyWtf (mkWtfCfg n scw sa sc ac) n rves wv with
          | none => (w, true)
          | some wv1 =>
            match copyAddons n rves wv1 with
            | none => (w.setEntry n wv1, true)
            | some wv2 => copyFromRepoGo scw sa sc ac enabled r (w.setEntry n wv2)
      else copyFromRepoGo scw sa sc ac enabled r w
    else copyFromRepoGo scw sa sc ac enabled r w

/-- DirectoryManager.copy_from_repo. -/
def copyFromRepo (repo wow : FSEntries) (enabled : List (String × Bool))
    (scw : Bool) (sa sc : List (String × List String))
    (ac : List (String × CharInfo)) : FSEntries × Bool :=
  copyFromRepoGo scw sa sc ac enabled repo wow

/-- A top-level repository entry copy_from_repo acts on: a directory,
named with a leading underscore, enabled, with an existing counterpart
in the installation. -/
def qualifiesB (enabled : List (String × Bool)) (wow : FSEntries)
    (n : String) (t : FSTree) : Bool :=
  t.isDir && startsUnderscore n && enabledLookup enabled n &&
    (wow.lookup n).isSome

/-- The repository restricted to its qualifying top-level entries. -/
def filterQualified (enabled : List (String × Bool)) (wow : FSEntries) :
    FSEntries → FSEntries
  | .nil => .nil
  | .file _ _ r => filterQualified enabled wow r
  | .dir n es r =>
    if qualifiesB enabled wow n (.dir es) = true then
      .dir n es (filterQualified enabled wow r)
    else filterQualified enabled wow r

theorem setEntry_names (es : FSEntries) (n : String) (t : FSTree) :
    (es.setEntry n t).names = es.names := by
  induction es with
  | nil => rfl
  | file m c r ih =>
    by_cases h : m = n
    · cases t <;> simp [FSEntries.setEntry, h, FSEntries.consT, FSEntries.names]
    · simp [FSEntries.setEntry, h, FSEntries.names, ih]
  | dir m d r ihE ihR =>
    by_cases h : m = n
    · cases t <;> simp [FSEntries.setEntry, h, FSEntries.consT, FSEntries.names]
    · simp [FSEntries.setEntry, h, FSEntries.names, ihR]

theorem setEntry_lookup_ne (es : FSEntries) (n m : String) (t : FSTree)
    (h : m ≠ n) : (es.setEntry n t).lookup m = es.lookup m := by
  induction es with
  | nil => rfl
  | file k c r ih =>
    by_cases hk : k = n
    · subst hk
      have hkm : ¬ k = m := fun he => h he.symm
      cases t <;>
        simp [FSEntries.setEntry, FSEntries.consT, FSEntries.lookup, hkm]
    · by_cases hkm : k = m <;>
        simp [FSEntries.setEntry, hk, FSEntries.lookup, hkm, ih, h]
  | dir k d r ihE ihR =>
    by_cases hk : k = n
    · subst hk
      have hkm : ¬ k = m := fun he => h he.symm
      cases t <;>
        simp [FSEntries.setEntry, FSEntries.consT, FSEntries.lookup, hkm]
    · by_cases hkm : k = m <;>
        simp [FSEntries.setEntry, hk, FSEntries.lookup, hkm, ihR, h]

theorem lookup_isSome_mem (es : FSEntries) (n : String) :
    (es.lookup n).isSome = true ↔ n ∈ es.names := by
  induction es with
  | nil => simp [FSEntries.lookup, FSEntries.names]
  | file m c r ih =>
    by_cases h : m = n
    · simp [FSEntries.lookup, FSEntries.names, h, ih]
    · have h2 : ¬ n = m := fun he => h he.symm
      simp [FSEntries.lookup, FSEntries.names, h, h2, ih]
  | dir m d r ihE ihR =>
    by_cases h : m = n
    · simp [FSEntries.lookup, FSEntries.names, h, ihR]
    · have h2 : ¬ n = m := fun he => h he.symm
      simp [FSEntries.lookup, FSEntries.names, h, h2, ihR]

theorem copyFromRepoGo_filter (scw : Bool) (sa sc : List (String × List String))
    (ac : List (String × CharInfo)) (enabled : List (String × Bool))
    (wow : FSEntries) :
    ∀ (repo w : FSEntries), w.names = wow.names →
      copyFromRepoGo scw sa sc ac enabled
          (filterQualified enabled wow repo) w =
        copyFromRepoGo scw sa sc ac enabled repo w := by
  intro repo
  induction repo with
  | nil => intro w _; rfl
  | file n c r ih =>
    intro w hw
    simp only [filterQualified, copyFromRepoGo]
    exact ih w hw
  | dir n rves r ihE ihR =>
    intro w hw
    by_cases hq : qualifiesB enabled wow n (.dir rves) = true
    · have hqs : startsUnderscore n = true := by
        simp only [qualifiesB, FSTree.isDir, Bool.true_and,
          Bool.and_eq_true] at hq
        exact hq.1.1
      have hqe : enabledLookup enabled n = true := by
        simp only [qualifiesB, FSTree.isDir, Bool.true_and,
          Bool.and_eq_true] at hq
        exact hq.1.2
      have hqw : (w.lookup n).isSome = true := by
        simp only [qualifiesB, FSTree.isDir, Bool.true_and,
          Bool.and_eq_true] at hq
        rw [lookup_isSome_mem, hw, ← lookup_isSome_mem]
        exact hq.2
      obtain ⟨wv, hwv⟩ := Option.isSome_iff_exists.mp hqw
      simp only [filterQualified, hq, if_pos, copyFromRepoGo, hqs, hqe, hwv]
      cases hW : copyWtf (mkWtfCfg n scw sa sc ac) n rves wv with
      | none => simp [hW]
      | some wv1 =>
        cases hA : copyAddons n rves wv1 with
        | none => simp [hW, hA]
        | some wv2 =>
          simp only [hW, hA]
          exact ihR (w.setEntry n wv2) (by rw [setEntry_names, hw])
    · simp only [filterQualified, hq, if_neg, not_false_eq_true]
      by_cases hs : startsUnderscore n = true
      · by_cases he : enabledLookup enabled n = true
        · have hnone : w.lookup n = none := by
            cases hl : w.lookup n with
            | none => rfl
            | some wv =>
              exfalso
              apply hq
              have h1 : n ∈ w.names := (lookup_isSome_mem w n).mp (by rw [hl]; rfl)
              have hiss : (wow.lookup n).isSome = true :=
                (lookup_isSome_mem wow n).mpr (hw ▸ h1)
              simp [qualifiesB, FSTree.isDir, hs, he, hiss]
          simp only [copyFromRepoGo, hs, he, if_pos, hnone]
          exact ihR w hw
        · simp only [copyFromRepoGo, hs, he, if_pos]
          simp only [Bool.not_eq_true] at he
          simp [he]
          exact ihR w hw
      · simp only [copyFromRepoGo]
        simp only [Bool.not_eq_true] at hs
        simp [hs]
        exact ihR w hw

theorem copyFromRepoGo_frame (scw : Bool) (sa sc : List (String × List String))
    (ac : List (String × CharInfo)) (enabled : List (String × Bool))
    (wow : FSEntries) (n0 : String) :
    ∀ (repo w : FSEntries), w.names = wow.names →
      (∀ t, (n0, t) ∈ repo.toList →
        qualifiesB enabled wow n0 t = false) →
      ((copyFromRepoGo scw sa sc ac enabled repo w).1.lookup n0 =
        w.lookup n0) := by
  intro repo
  induction repo with
  | nil => intro w _ _; rfl
  | file n c r ih =>
    intro w hw hq
    simp only [copyFromRepoGo]
    exact ih w hw fun t ht => hq t (by simp [FSEntries.toList, ht])
  | dir n rves r ihE ihR =>
    intro w hw hq
    have hqr : ∀ t, (n0, t) ∈ r.toList → qualifiesB enabled wow n0 t = false :=
      fun t ht => hq t (by simp [FSEntries.toList, ht])
    by_cases hs : startsUnderscore n = true
    · by_cases he : enabledLookup enabled n = true
      · cases hl : w.lookup n with
        | none =>
          simp only [copyFromRepoGo, hs, he, if_pos, hl]
          exact ihR w hw hqr
        | some wv =>
          have hne : n ≠ n0 := by
            intro heq
            subst heq
            have hqf := hq (.dir rves) (by simp [FSEntries.toList])
            have h1 : n ∈ w.names := (lookup_isSome_mem w n).mp (by rw [hl]; rfl)
            have hiss : (wow.lookup n).isSome = true :=
              (lookup_isSome_mem wow n).mpr (hw ▸ h1)
            have hqt : qualifiesB enabled wow n (.dir rves) = true := by
              simp [qualifiesB, FSTree.isDir, hs, he, hiss]
            rw [hqt] at hqf
            simp at hqf
          simp only [copyFromRepoGo, hs, he, if_pos, hl]
          cases hW : copyWtf (mkWtfCfg n scw sa sc ac) n rves wv with
          | none => simp [hW]
          | some wv1 =>
            cases hA : copyAddons n rves wv1 with
            | none =>
              simp only [hW, hA]
              exact setEntry_lookup_ne w n n0 wv1 (Ne.symm hne)
            | some wv2 =>
              simp only [hW, hA]
              rw [ihR (w.setEntry n wv2) (by rw [setEntry_names, hw]) hqr]
              exact setEntry_lookup_ne w n n0 wv2 (Ne.symm hne)
      · simp only [copyFromRepoGo, hs, if_pos]
        simp only [Bool.not_eq_true] at he
        simp only [he, Bool.false_eq_true, if_neg, not_false_eq_true]
        exact ihR w hw hqr
    · simp only [copyFromRepoGo]
      simp only [Bool.not_eq_true] at hs
      simp only [hs, Bool.false_eq_true, if_neg, not_false_eq_true]
      exact ihR w hw hqr

/-- Claim C10: copy_from_repo is driven only by the qualifying top-level
repository entries - directories whose names start with an underscore,
that are enabled, and whose version directory exists in the installation:
restricting the repository to those entries produces the same outcome
(so the ignore file, repository metadata and other entries are never
copied), and any installation entry without a qualifying repository
counterpart - in particular disabled or absent versions - is left
untouched. -/
theorem claim10_frame (repo wow : FSEntries) (enabled : List (String × Bool))
    (scw : Bool) (sa sc : List (String × List String))
    (ac : List (String × CharInfo)) (n0 : String)
    (h : ∀ t, (n0, t) ∈ repo.toList → qualifiesB enabled wow n0 t = false) :
    copyFromRepo (filterQualified enabled wow repo) wow enabled scw sa sc ac =
      copyFromRepo repo wow enabled scw sa sc ac ∧
    (copyFromRepo repo wow enabled scw sa sc ac).1.lookup n0 =
      wow.lookup n0 := by
  constructor
  · exact copyFromRepoGo_filter scw sa sc ac enabled wow repo wow rfl
  · exact copyFromRepoGo_frame scw sa sc ac enabled wow n0 repo wow rfl h

/-- Claim C10 (witness): a repository holding a .gitignore file, a .git
directory, a disabled classic version and an enabled retail version; the
classic installation directory is untouched. -/
theorem claim10_frame_holds :
    copyFromRepo
        (filterQualified [("_retail_", true)]
          (.dir "_retail_" .nil (.dir "_classic_" (.file "x" [1] .nil) .nil))
          (.file ".gitignore" [2] (.dir ".git" .nil
            (.dir "_classic_" (.dir "WTF" .nil .nil)
              (.dir "_retail_" (.dir "WTF" .nil .nil) .nil)))))
        (.dir "_retail_" .nil (.dir "_classic_" (.file "x" [1] .nil) .nil))
        [("_retail_", true)] true [] [] [] =
      copyFromRepo
        (.file ".gitignore" [2] (.dir ".git" .nil
          (.dir "_classic_" (.dir "WTF" .nil .nil)
            (.dir "_retail_" (.dir "WTF" .nil .nil) .nil))))
        (.dir "_retail_" .nil (.dir "_classic_" (.file "x" [1] .nil) .nil))
        [("_retail_", true)] true [] [] [] ∧
    (copyFromRepo
        (.file ".gitignore" [2] (.dir ".git" .nil
          (.dir "_classic_" (.dir "WTF" .nil .nil)
            (.dir "_retail_" (.dir "WTF" .nil .nil) .nil))))
        (.dir "_retail_" .nil (.dir "_classic_" (.file "x" [1] .nil) .nil))
        [("_retail_", true)] true [] [] []).1.lookup "_classic_" =
      (FSEntries.dir "_retail_" .nil
        (.dir "_classic_" (.file "x" [1] .nil) .nil)).lookup "_classic_" :=
  claim10_frame
    (.file ".gitignore" [2] (.dir ".git" .nil
      (.dir "_classic_" (.dir "WTF" .nil .nil)
        (.dir "_retail_" (.dir "WTF" .nil .nil) .nil))))
    (.dir "_retail_" .nil (.dir "_classic_" (.file "x" [1] .nil) .nil))
    [("_retail_", true)] true [] [] [] "_classic_" (by
      intro t ht
      simp only [FSEntries.toList, List.mem_cons, List.not_mem_nil, or_false,
        Prod.mk.injEq] at ht
      rcases ht with ⟨he, _⟩ | ⟨he, _⟩ | ⟨_, rfl⟩ | ⟨he, _⟩
      · exact absurd he (by decide)
      · exact absurd he (by decide)
      · decide
      · exact absurd he (by decide))

/-! ### Claims C6, C7, C8: the version control adapter (git_manager.py).

The pygit2 layer is embedded at two granularities.  pull (claim C6)
branches only on the merge-analysis flags and the presence of index
conflicts, so it is modelled over a commit-graph-level state whose trees
are abstract identifiers, plus an oracle for what libgit2 computes from
the object database: the merge analysis flags, whether a merge of two
commits leaves index conflicts, the merged tree, and the tree of a
commit.  push and resolve_conflict (claims C8 and C7) behave differently
depending on per-path file content - repo.diff with one revision is a
tree-to-workdir diff that omits untracked files, and checkout_tree with
the default GIT_CHECKOUT_SAFE strategy refuses to overwrite local
modifications - so they are modelled further below over a file-level
state whose trees are finite path-to-blob maps.  Abstractions: fetch has
already populated the remote targets; the fast-forward checkout fallback
of pull (hard reset on a conflicts-prevent-checkout error after a FORCE
checkout) yields the same modelled state as the normal fast-forward
path, so the two are not distinguished; local branch ref bookkeeping is
summarized by the HEAD target. -/

/-- The three merge-analysis bits the adapter inspects, tested in the
source order up-to-date, fastforward, normal (elif chain). -/
structure MergeFlags where
  upToDate : Bool
  fastforward : Bool
  normal : Bool
  deriving DecidableEq

/-- A commit created by the adapter. -/
structure GitCommit where
  id : Nat
  parents : List Nat
  message : String
  tree : Nat
  deriving DecidableEq

/-- The modelled repository state. -/
structure RepoState where
  headTarget : Nat
  headTree : Nat
  workdirTree : Nat
  indexTree : Nat
  remoteMaster : Option Nat
  remoteMain : Option Nat
  mergeState : Bool
  commits : List GitCommit
  pushedRefs : List Nat
  nextId : Nat
  deriving DecidableEq

/-- The object-database facts the adapter consumes from libgit2. -/
structure GitOracle where
  analysis : Nat → Nat → MergeFlags
  mergeConflicts : Nat → Nat → Bool
  mergeTree : Nat → Nat → Nat
  commitTree : Nat → Nat

/-- GitManager.pull remote-branch lookup: origin/master, else
origin/main (the Bool records which one was found). -/
def resolveRemote (r : RepoState) : Option (Bool × Nat) :=
  match r.remoteMaster with
  | some t => some (true, t)
  | none =>
    match r.remoteMain with
    | some t => some (false, t)
    | none => none

/-- The outcome of a pull: success, the distinguished MERGE_CONFLICT
signal, or the early return when no remote branch exists. -/
inductive PullResult where
  | ok : PullResult
  | conflict : PullResult
  | noRemote : PullResult
  deriving DecidableEq

/-- GitManager.pull: fetch (already reflected in the remote targets),
resolve the remote branch, then branch on the merge analysis: up to date
(no-op), fast-forward (adopt the remote tree and target, including the
conflicts-prevent-checkout hard-reset fallback), or a true merge, which
raises MERGE_CONFLICT and leaves merge state in place when the index has
conflicts, and otherwise commits the merge with both parents and clears
merge state. -/
def pull (o : GitOracle) (r : RepoState) : RepoState × PullResult :=
  match resolveRemote r with
  | none => (r, .noRemote)
  | some (_, tgt) =>
    let fl := o.analysis r.headTarget tgt
    if fl.upToDate = true then (r, .ok)
    else if fl.fastforward = true then
      ({ r with
          workdirTree := o.commitTree tgt
          indexTree := o.commitTree tgt
          headTarget := tgt
          headTree := o.commitTree tgt }, .ok)
    else if fl.normal = true then
      let mt := o.mergeTree r.headTarget tgt
      if o.mergeConflicts r.headTarget tgt = true then
        ({ r with mergeState := true, indexTree := mt }, .conflict)
      else
        ({ r with
            commits := ⟨r.nextId, [r.headTarget, tgt], "Merge from remote", mt⟩ ::
              r.commits
            headTarget := r.nextId
            headTree := mt
            indexTree := mt
            workdirTree := mt
            mergeState := false
            nextId := r.nextId + 1 }, .ok)
    else (r, .ok)

/-- The merge analysis requires a true merge: neither up to date nor
fast-forwardable, with the normal bit set (the elif chain of pull). -/
def trueMergeNeeded (fl : MergeFlags) : Prop :=
  fl.upToDate = false ∧ fl.fastforward = false ∧ fl.normal = true

/-- Claim C6: pull raises the distinguished conflict signal exactly when
the merge analysis requires a true merge and that merge leaves
unresolved index conflicts; in that case the repository merge state is
left in place; in the non-conflicting true-merge case a merge commit
with the local head and the remote target as parents is created and the
merge state is cleared. -/
theorem claim6_pull_conflict (o : GitOracle) (r : RepoState) :
    ((pull o r).2 = .conflict ↔ ∃ p, resolveRemote r = some p ∧
      trueMergeNeeded (o.analysis r.headTarget p.2) ∧
      o.mergeConflicts r.headTarget p.2 = true) ∧
    ((pull o r).2 = .conflict → (pull o r).1.mergeState = true) ∧
    (∀ p, resolveRemote r = some p →
      trueMergeNeeded (o.analysis r.headTarget p.2) →
      o.mergeConflicts r.headTarget p.2 = false →
      (pull o r).1.commits =
        ⟨r.nextId, [r.headTarget, p.2], "Merge from remote",
          o.mergeTree r.headTarget p.2⟩ :: r.commits ∧
      (pull o r).1.headTarget = r.nextId ∧
      (pull o r).1.mergeState = false) := by
  cases hrr : resolveRemote r with
  | none => simp [pull, hrr, trueMergeNeeded]
  | some p =>
    obtain ⟨b, tgt⟩ := p
    by_cases h1 : (o.analysis r.headTarget tgt).upToDate = true
    · simp [pull, hrr, h1, trueMergeNeeded]
    · by_cases h2 : (o.analysis r.headTarget tgt).fastforward = true
      · simp [pull, hrr, h1, h2, trueMergeNeeded]
      · by_cases h3 : (o.analysis r.headTarget tgt).normal = true
        · by_cases hc : o.mergeConflicts r.headTarget tgt = true
          · simp [pull, hrr, h1, h2, h3, hc, trueMergeNeeded]
          · simp [pull, hrr, h1, h2, h3, hc, trueMergeNeeded]
        · simp [pull, hrr, h1, h2, h3, trueMergeNeeded]

/-- Claim C6 (witness): a repository whose merge analysis requires a true
merge; with conflicts pull reports the signal and keeps merge state, and
without conflicts it commits the merge with both parents. -/
theorem claim6_pull_conflict_holds :
    (pull ⟨fun _ _ => ⟨false, false, true⟩, fun _ _ => true, fun _ _ => 30,
        fun _ => 0⟩
      ⟨1, 10, 11, 11, some 5, none, false, [], [], 42⟩).2 = .conflict ∧
    (pull ⟨fun _ _ => ⟨false, false, true⟩, fun _ _ => true, fun _ _ => 30,
        fun _ => 0⟩
      ⟨1, 10, 11, 11, some 5, none, false, [], [], 42⟩).1.mergeState = true ∧
    (pull ⟨fun _ _ => ⟨false, false, true⟩, fun _ _ => false, fun _ _ => 30,
        fun _ => 0⟩
      ⟨1, 10, 11, 11, some 5, none, false, [], [], 42⟩).1.commits =
      [⟨42, [1, 5], "Merge from remote", 30⟩] := by
  refine ⟨?_, ?_, ?_⟩
  · exact (claim6_pull_conflict _ _).1.mpr ⟨(true, 5), rfl, ⟨rfl, rfl, rfl⟩, rfl⟩
  · exact (claim6_pull_conflict _ _).2.1
      ((claim6_pull_conflict _ _).1.mpr ⟨(true, 5), rfl, ⟨rfl, rfl, rfl⟩, rfl⟩)
  · exact ((claim6_pull_conflict
      ⟨fun _ _ => ⟨false, false, true⟩, fun _ _ => false, fun _ _ => 30,
        fun _ => 0⟩
      ⟨1, 10, 11, 11, some 5, none, false, [], [], 42⟩).2.2
      (true, 5) rfl ⟨rfl, rfl, rfl⟩ rfl).1

/-! ### File-level repository model for push and resolve_conflict.

A tree is a finite map from paths to blob contents, as an association
list.  This granularity is needed because repo.diff of one revision
(git_manager.py line 280) is a tree-to-workdir diff whose default flags
exclude untracked (workdir-only) files, and because checkout_tree with
no strategy argument (line 301) runs with the default GIT_CHECKOUT_SAFE
strategy, which refuses to overwrite files modified relative to the
baseline (HEAD) and raises a conflicts-prevent-checkout error instead -
in contrast to the explicit GIT_CHECKOUT_FORCE of the pull fast-forward
path (line 242). -/

/-- A file tree: path to blob content, as an association list. -/
abbrev FileTree := List (String × Nat)

/-- A commit created by the adapter, carrying its file tree. -/
structure FileCommit where
  id : Nat
  parents : List Nat
  message : String
  tree : FileTree
  deriving DecidableEq

/-- The file-level repository state. -/
structure FileRepo where
  headTarget : Nat
  headTree : FileTree
  workdirFiles : FileTree
  indexFiles : FileTree
  remoteMaster : Option Nat
  remoteMain : Option Nat
  mergeState : Bool
  commits : List FileCommit
  pushedRefs : List Nat
  nextId : Nat
  deriving DecidableEq

/-- The remote-branch lookup of resolve_conflict: origin/master, else
origin/main. -/
def resolveRemoteF (r : FileRepo) : Option (Bool × Nat) :=
  match r.remoteMaster with
  | some t => some (true, t)
  | none =>
    match r.remoteMain with
    | some t => some (false, t)
    | none => none

/-- index.add_all() followed by index.write(): every working-directory
file is added or updated in the index; entries for paths deleted from
the working directory are not removed (add_all does not delete). -/
def stageAddAll (index workdir : FileTree) : FileTree :=
  workdir ++ index.filter fun pc => (List.lookup pc.1 workdir).isNone

/-- repo.diff of HEAD with no second revision and cached false: a
tree-to-workdir diff.  Truthy iff some path tracked by the HEAD tree is
modified or deleted in the working directory; untracked (workdir-only)
files are excluded by the default diff flags. -/
def diffTreeToWorkdir (head workdir : FileTree) : Bool :=
  head.any fun pc => decide (List.lookup pc.1 workdir ≠ some pc.2)

/-- GitManager.push: index.add_all and index.write stage the working
directory; when repo.diff of HEAD is empty, report false with no commit
and no push; otherwise create one commit with the fixed message whose
tree is the staged index, and push its ref. -/
def push (r : FileRepo) : FileRepo × Bool :=
  let staged := stageAddAll r.indexFiles r.workdirFiles
  if diffTreeToWorkdir r.headTree r.workdirFiles = true then
    ({ r with
        indexFiles := staged
        commits := ⟨r.nextId, [r.headTarget], "Update WoW addons and settings",
          staged⟩ :: r.commits
        headTarget := r.nextId
        headTree := staged
        nextId := r.nextId + 1
        pushedRefs := r.nextId :: r.pushedRefs }, true)
  else ({ r with indexFiles := staged }, false)

/-- A SAFE (default-strategy, non-forced) checkout_tree raises a
conflicts-prevent-checkout error iff some path it must change (target
content differs from the baseline HEAD tree) is locally modified (the
working-directory content differs from the baseline) and does not
already hold the target content. -/
def safeCheckoutConflict (baseline target workdir : FileTree) : Bool :=
  ((baseline ++ target).map Prod.fst).any fun p =>
    decide (List.lookup p target ≠ List.lookup p baseline) &&
    decide (List.lookup p workdir ≠ List.lookup p baseline) &&
    decide (List.lookup p workdir ≠ List.lookup p target)

/-- The working directory after a successful checkout of target: the
target tree, with untracked files not touched by the checkout left in
place. -/
def applyCheckout (baseline target workdir : FileTree) : FileTree :=
  target ++ workdir.filter fun pc =>
    (List.lookup pc.1 baseline).isNone && (List.lookup pc.1 target).isNone

/-- GitManager.resolve_conflict over the file-level state (ct gives the
file tree of a commit).  With use_remote, checkout_tree of the remote
tip runs with the default SAFE strategy: when it raises - no remote
branch (AttributeError on None), or a conflicts-prevent-checkout error
on a locally modified path - the error flag is returned with the state
unchanged, and head.set_target and state_cleanup never execute;
otherwise the head moves to the remote target and merge state is
cleared.  Without use_remote, only state_cleanup runs. -/
def resolveConflict (ct : Nat → FileTree) (r : FileRepo) (useRemote : Bool) :
    FileRepo × Bool :=
  if useRemote = true then
    match resolveRemoteF r with
    | none => (r, true)
    | some (_, tgt) =>
      if safeCheckoutConflict r.headTree (ct tgt) r.workdirFiles = true then
        (r, true)
      else
        ({ r with
            workdirFiles := applyCheckout r.headTree (ct tgt) r.workdirFiles
            headTarget := tgt
            headTree := ct tgt
            mergeState := false }, false)
  else ({ r with mergeState := false }, false)

/-- The conflicted-merge state of the claim C7 scenario: HEAD tracks f
with content 1, the conflicted merge left merged content 9 in the
working tree and index, merge state is set, and origin/master points at
commit 5. -/
def conflictedRepo : FileRepo :=
  ⟨1, [("f", 1)], [("f", 9)], [("f", 9)], some 5, none, true, [], [], 42⟩

/-- The remote commit trees of the claim C7 scenario: the remote tip 5
holds f with content 2, divergent from both the local HEAD and the
merged working tree. -/
def remoteTrees : Nat → FileTree := fun t => if t = 5 then [("f", 2)] else []

/-- Claim C7 (divergence at the failing input): in the conflicted-merge
state the claim addresses, resolve_conflict with use_remote performs a
default-strategy SAFE checkout which raises instead of discarding the
local changes: the state is returned unchanged, so the merge state is
not cleared and the working tree is not byte-identical to the remote
tip; resolve_conflict without use_remote only clears merge state, as
claimed. -/
theorem claim7_divergence :
    resolveConflict remoteTrees conflictedRepo true = (conflictedRepo, true) ∧
    conflictedRepo.mergeState = true ∧
    conflictedRepo.workdirFiles ≠ remoteTrees 5 ∧
    resolveConflict remoteTrees conflictedRepo false =
      ({ conflictedRepo with mergeState := false }, false) := by
  decide

/-- The additions-only state of the claim C8 counterexample: an empty
HEAD tree and a working directory holding one new file. -/
def additionsOnlyRepo : FileRepo :=
  ⟨1, [], [("NewAddon.lua", 1)], [], none, none, false, [], [], 7⟩

/-- Claim C8 (counterexample): in an additions-only state the staged
tree differs from the HEAD tree, yet push reports nothing to push,
creates no commit and pushes nothing: repo.diff of HEAD is a
tree-to-workdir diff that omits untracked files, so the staged
additions are invisible to it. -/
theorem claim8_counterexample :
    stageAddAll additionsOnlyRepo.indexFiles additionsOnlyRepo.workdirFiles ≠
      additionsOnlyRepo.headTree ∧
    (push additionsOnlyRepo).2 = false ∧
    (push additionsOnlyRepo).1.commits = [] ∧
    (push additionsOnlyRepo).1.pushedRefs = [] := by
  decide

/-- Claim C8 (amended): push reports the distinct non-error false
outcome exactly when no path tracked by the current HEAD commit is
modified or deleted in the working directory - in particular in
additions-only states, whose staged new files the diff guard cannot
see - and then creates no commit and pushes nothing; otherwise it
creates exactly one commit with the fixed message, the current head as
parent and the staged index as tree, and pushes its ref. -/
theorem claim8_push (r : FileRepo) :
    ((push r).2 = false ↔
      ∀ pc ∈ r.headTree, List.lookup pc.1 r.workdirFiles = some pc.2) ∧
    ((push r).2 = false → (push r).1.commits = r.commits ∧
      (push r).1.pushedRefs = r.pushedRefs ∧
      (push r).1.headTarget = r.headTarget) ∧
    ((push r).2 = true → (push r).1.commits =
      ⟨r.nextId, [r.headTarget], "Update WoW addons and settings",
        stageAddAll r.indexFiles r.workdirFiles⟩ :: r.commits ∧
      (push r).1.pushedRefs = r.nextId :: r.pushedRefs) := by
  have hiff : diffTreeToWorkdir r.headTree r.workdirFiles = false ↔
      ∀ pc ∈ r.headTree, List.lookup pc.1 r.workdirFiles = some pc.2 := by
    rw [← Bool.not_eq_true, diffTreeToWorkdir, List.any_eq_true]
    push_neg
    simp
  by_cases h : diffTreeToWorkdir r.headTree r.workdirFiles = true
  · rw [← hiff]
    simp [push, h]
  · rw [← hiff]
    simp only [Bool.not_eq_true] at h
    simp [push, h]

/-- Claim C8 (witness for the amended theorem): a clean state reports
nothing to push with no commit; a state with a modified tracked file
commits the staged tree and pushes. -/
theorem claim8_push_holds :
    (push ⟨1, [("f", 1)], [("f", 1)], [("f", 1)], none, none, false, [], [],
      7⟩).2 = false ∧
    (push ⟨1, [("f", 1)], [("f", 1)], [("f", 1)], none, none, false, [], [],
      7⟩).1.commits = [] ∧
    (push ⟨1, [("f", 1)], [("f", 2)], [("f", 1)], none, none, false, [], [],
      7⟩).1.commits =
      [⟨7, [1], "Update WoW addons and settings",
        stageAddAll [("f", 1)] [("f", 2)]⟩] := by
  refine ⟨?_, ?_, ?_⟩
  · exact (claim8_push _).1.mpr (by decide)
  · exact ((claim8_push _).2.1 ((claim8_push _).1.mpr (by decide))).1
  · exact ((claim8_push
      ⟨1, [("f", 1)], [("f", 2)], [("f", 1)], none, none, false, [], [],
        7⟩).2.2 (by decide)).1

end WowSync
